import Mathlib

/-!
# Verification of the `extsort` external sorter (push engine + merge iterator)

Shallow embedding of `src/push.rs` (`PushExternalSorter`) and `src/iter.rs`
(`SortedIterator`) from the `extsort-rs` repository.

Modelling conventions:
* Records are values of an arbitrary type `α`; the caller-supplied comparator
  is a function `cmp : α → α → Ordering` (the claims about order assume it is
  a lawful total-order comparator, expressed with `Batteries.TransCmp`).
* A segment file is read through the caller's codec, one `T::decode` call at a
  time.  We model the reader of a segment as the list of outcomes successive
  `decode` calls produce: `Except.ok a` for a successfully decoded record and
  `Except.error e` for a failing call (`e = IOError.unexpectedEof` for a clean
  end-of-stream, `IOError.other code` for any other I/O/corruption error).
  Reading past the end of the list yields `unexpectedEof`, exactly as a codec
  reading an exhausted file does.
* A segment file written by the engine from the in-memory buffer `l` is, under
  a round-tripping codec, read back as the stream `l.map Except.ok` (`okStream`).
* `Vec`/`VecDeque` are Lean lists; `BinaryHeap<HeapItem>` is modelled as the
  list of its elements in insertion order. `HeapItem`'s `Ord` instance reverses
  the comparator, so `BinaryHeap::pop` (which removes a greatest element for
  `HeapItem`'s order) removes an element whose `value` is minimal for `cmp`;
  Rust leaves the choice among equal elements unspecified, the model takes the
  leftmost minimal element.
* `sort_unstable_by`/`par_sort_unstable_by` produce some permutation sorted by
  the comparator, with unspecified order among comparator-equal elements; the
  model uses insertion sort by `cmp ≠ .gt` (`sortByCmp`).  The `parallel`
  option only changes which sorting routine runs, not its result, and is not
  modelled separately.
* File-system state is reduced to what the claims mention: `dir_created`
  records whether `get_sort_dir` ever created the sort directory.
-/

namespace Extsort

variable {α : Type}

/-- An `std::io::Error`, as far as the engine inspects it: either the
`UnexpectedEof` kind (clean end-of-stream) or any other error. -/
inductive IOError where
  | unexpectedEof : IOError
  | other (code : Nat) : IOError
deriving DecidableEq, Repr

instance {ε σ : Type} [DecidableEq ε] [DecidableEq σ] : DecidableEq (Except ε σ) :=
  fun x y =>
    match x, y with
    | Except.ok a, Except.ok b =>
      if h : a = b then isTrue (by rw [h]) else isFalse (by intro hc; cases hc; exact h rfl)
    | Except.error a, Except.error b =>
      if h : a = b then isTrue (by rw [h]) else isFalse (by intro hc; cases hc; exact h rfl)
    | Except.ok _, Except.error _ => isFalse (by intro hc; cases hc)
    | Except.error _, Except.ok _ => isFalse (by intro hc; cases hc)

/-- The reader of one segment file: the outcomes of the successive `decode`
calls it can still serve. -/
abbrev Reader (α : Type) := List (Except IOError α)

/-- One call of `T::decode(&mut segment.reader)`: consumes the next outcome,
or reports a clean end-of-stream when the file is exhausted. -/
def decodeStep : Reader α → Except IOError α × Reader α
  | [] => (Except.error IOError.unexpectedEof, [])
  | x :: rest => (x, rest)

/-- `struct Segment` of `iter.rs`: a reader plus heap-mode bookkeeping. -/
structure Segment (α : Type) where
  reader : Reader α
  heap_count : Nat
  done : Bool
deriving DecidableEq, Repr

/-- Fallback used for out-of-range list indexing (never reached from valid
states, where every stored index is in range). -/
def Segment.junk : Segment α := ⟨[], 0, false⟩

/-- `struct HeapItem` of `iter.rs` (without the stored closure): a candidate
value tagged with the segment it came from. -/
structure HeapItem (α : Type) where
  segment_index : Nat
  value : α
deriving DecidableEq, Repr

/-- `enum Mode` of `iter.rs`. -/
inductive Mode (α : Type) where
  | Passthrough (queue : List α) : Mode α
  | Heap (heap : List (HeapItem α)) : Mode α
  | Peek (next_values : List (Option α)) : Mode α
deriving DecidableEq, Repr

/-- `struct SortedIterator` of `iter.rs` (the temp-dir handle and the stored
comparator/options are omitted; the comparator is passed to each operation,
the `heap_iter_segment_count` option only matters at construction). -/
structure SortedIterator (α : Type) where
  segments : List (Segment α)
  mode : Mode α
  count : Nat
deriving DecidableEq, Repr

/-- `SortedIterator::sorted_count`. -/
def SortedIterator.sorted_count (it : SortedIterator α) : Nat := it.count

/-- `SortedIterator::disk_segment_count`. -/
def SortedIterator.disk_segment_count (it : SortedIterator α) : Nat :=
  it.segments.length

/-- Whether the iterator is in `Mode::Passthrough`. -/
def SortedIterator.isPassthrough (it : SortedIterator α) : Bool :=
  match it.mode with
  | Mode.Passthrough _ => true
  | _ => false

/-- Whether the iterator is in `Mode::Heap`. -/
def SortedIterator.isHeap (it : SortedIterator α) : Bool :=
  match it.mode with
  | Mode.Heap _ => true
  | _ => false

/-- Whether the iterator is in `Mode::Peek`. -/
def SortedIterator.isPeek (it : SortedIterator α) : Bool :=
  match it.mode with
  | Mode.Peek _ => true
  | _ => false

/-- The non-strict order induced by a comparator (`cmp a b ≠ Ordering.gt`). -/
def cle (cmp : α → α → Ordering) (a b : α) : Prop := cmp a b ≠ Ordering.gt

instance (cmp : α → α → Ordering) : DecidableRel (cle cmp) := fun a b =>
  inferInstanceAs (Decidable (cmp a b ≠ Ordering.gt))

/-- `BinaryHeap::push`: the model records insertion order. -/
def heapPush (heap : List (HeapItem α)) (item : HeapItem α) : List (HeapItem α) :=
  heap ++ [item]

/-- `BinaryHeap::pop` for `HeapItem`'s reversed order: removes the leftmost
element whose `value` is minimal for `cmp` (Rust does not specify which of
several comparator-equal elements is popped). -/
def heapPopMin (cmp : α → α → Ordering) :
    List (HeapItem α) → Option (HeapItem α × List (HeapItem α))
  | [] => none
  | x :: xs =>
    match heapPopMin cmp xs with
    | none => some (x, [])
    | some (m, rest) =>
      if cmp m.value x.value = Ordering.lt then some (m, x :: rest)
      else some (x, xs)

/-- The inner `for _i in 0..20` refill loop of `SortedIterator::fill_heap`,
specialized to one segment.  A clean EOF marks the segment done and the loop
keeps running (the `continue` in the source only skips one iteration); any
other decode error aborts the whole fill, returning the state mutated so far. -/
def fillSegment (segment_index : Nat) (seg : Segment α)
    (heap : List (HeapItem α)) :
    Nat → Segment α × List (HeapItem α) × Option IOError
  | 0 => (seg, heap, none)
  | fuel + 1 =>
    match seg.reader with
    | [] =>
      fillSegment segment_index { seg with done := true } heap fuel
    | Except.ok value :: rest =>
      fillSegment segment_index
        { seg with reader := rest, heap_count := seg.heap_count + 1 }
        (heapPush heap ⟨segment_index, value⟩) fuel
    | Except.error IOError.unexpectedEof :: rest =>
      fillSegment segment_index { seg with reader := rest, done := true } heap fuel
    | Except.error (IOError.other code) :: rest =>
      ({ seg with reader := rest }, heap, some (IOError.other code))

/-- The outer loop of `SortedIterator::fill_heap`: every segment that is not
done and has no live candidates in the heap is refilled with up to 20 freshly
decoded items; the first hard decode error aborts the pass. -/
def fillHeapAux (segment_index : Nat) :
    List (Segment α) → List (HeapItem α) →
    List (Segment α) × List (HeapItem α) × Option IOError
  | [], heap => ([], heap, none)
  | seg :: rest, heap =>
    if seg.done then
      let (rs, h, e) := fillHeapAux (segment_index + 1) rest heap
      (seg :: rs, h, e)
    else if seg.heap_count = 0 then
      match fillSegment segment_index seg heap 20 with
      | (seg', heap', some e) => (seg' :: rest, heap', some e)
      | (seg', heap', none) =>
        let (rs, h, e) := fillHeapAux (segment_index + 1) rest heap'
        (seg' :: rs, h, e)
    else
      let (rs, h, e) := fillHeapAux (segment_index + 1) rest heap
      (seg :: rs, h, e)

/-- `SortedIterator::fill_heap`. -/
def fill_heap (segments : List (Segment α)) (heap : List (HeapItem α)) :
    List (Segment α) × List (HeapItem α) × Option IOError :=
  fillHeapAux 0 segments heap

/-- The scan of the `Mode::Peek` branch of `next`: the index (and cached
value) of the first cached head that is strictly smaller than every cached
head before it and not strictly greater than any cached head after it —
i.e. the leftmost minimum, ties won by the earlier index. -/
def selectSmallest (cmp : α → α → Ordering) (next_values : List (Option α)) :
    Option (Nat × α) :=
  go 0 none next_values
where
  /-- Fold of the scan loop, carrying the running smallest candidate. -/
  go (idx : Nat) (best : Option (Nat × α)) :
      List (Option α) → Option (Nat × α)
  | [] => best
  | none :: rest => go (idx + 1) best rest
  | some v :: rest =>
    match best with
    | none => go (idx + 1) (some (idx, v)) rest
    | some (bi, bv) =>
      if cmp v bv = Ordering.lt then go (idx + 1) (some (idx, v)) rest
      else go (idx + 1) (some (bi, bv)) rest

/-- The part of the `Mode::Heap` branch of `next` after the initial
empty-heap refill: pop the heap minimum, decrement its segment's live count,
refill if that count just hit zero (an error of that refill is returned in
place of the popped item, which the source drops), and return the popped
value. -/
def heapPopPhase (cmp : α → α → Ordering) (segments : List (Segment α))
    (heap : List (HeapItem α)) (count : Nat) :
    Option (Except IOError α) × SortedIterator α :=
  match heapPopMin cmp heap with
  | none => (none, ⟨segments, Mode.Heap heap, count⟩)
  | some (item, heap') =>
    let seg := segments.getD item.segment_index Segment.junk
    let seg := { seg with heap_count := seg.heap_count - 1 }
    let segments := segments.set item.segment_index seg
    if seg.heap_count = 0 then
      match fill_heap segments heap' with
      | (segments, heap'', some e) =>
        (some (Except.error e), ⟨segments, Mode.Heap heap'', count⟩)
      | (segments, heap'', none) =>
        (some (Except.ok item.value), ⟨segments, Mode.Heap heap'', count⟩)
    else
      (some (Except.ok item.value), ⟨segments, Mode.Heap heap', count⟩)

/-- `<SortedIterator as Iterator>::next`.  Returns the produced element (if
any) together with the successor state. -/
def SortedIterator.next (cmp : α → α → Ordering) (it : SortedIterator α) :
    Option (Except IOError α) × SortedIterator α :=
  match it with
  | ⟨segments, Mode.Passthrough queue, count⟩ =>
    match queue with
    | [] => (none, ⟨segments, Mode.Passthrough [], count⟩)
    | v :: rest => (some (Except.ok v), ⟨segments, Mode.Passthrough rest, count⟩)
  | ⟨segments, Mode.Heap heap, count⟩ =>
    if heap.isEmpty then
      match fill_heap segments heap with
      | (segments', heap', some e) =>
        (some (Except.error e), ⟨segments', Mode.Heap heap', count⟩)
      | (segments', heap', none) => heapPopPhase cmp segments' heap' count
    else
      heapPopPhase cmp segments heap count
  | ⟨segments, Mode.Peek next_values, count⟩ =>
    match selectSmallest cmp next_values with
    | none => (none, ⟨segments, Mode.Peek next_values, count⟩)
    | some (idx, value) =>
      let seg := segments.getD idx Segment.junk
      match decodeStep seg.reader with
      | (Except.ok v', rest) =>
        (some (Except.ok value),
          ⟨segments.set idx { seg with reader := rest },
            Mode.Peek (next_values.set idx (some v')), count⟩)
      | (Except.error IOError.unexpectedEof, rest) =>
        (some (Except.ok value),
          ⟨segments.set idx { seg with reader := rest },
            Mode.Peek (next_values.set idx none), count⟩)
      | (Except.error (IOError.other code), rest) =>
        (some (Except.error (IOError.other code)),
          ⟨segments.set idx { seg with reader := rest },
            Mode.Peek (next_values.set idx none), count⟩)

/-- Repeatedly call `next`, collecting the produced elements, until the
iterator reports `None` or the fuel runs out. -/
def drain (cmp : α → α → Ordering) : Nat → SortedIterator α → List (Except IOError α)
  | 0, _ => []
  | fuel + 1, it =>
    match SortedIterator.next cmp it with
    | (none, _) => []
    | (some r, it') => r :: drain cmp fuel it'

/-- An upper bound on how many elements the iterator can still produce: every
produced element consumes a queue entry, a live heap candidate, a cached peek
head, or a reader entry. -/
def SortedIterator.fuel (it : SortedIterator α) : Nat :=
  (match it.mode with
    | Mode.Passthrough queue => queue.length
    | Mode.Heap heap => heap.length
    | Mode.Peek next_values => next_values.countP Option.isSome) +
  (it.segments.map (fun seg => seg.reader.length)).sum

/-- Fully drain the iterator (the fuel suffices, so the run always ends with
the iterator returning `None`). -/
def drainAll (cmp : α → α → Ordering) (it : SortedIterator α) :
    List (Except IOError α) :=
  drain cmp it.fuel it

/-- The successfully yielded items of an output, in order. -/
def okItems (l : List (Except IOError α)) : List α :=
  l.filterMap Except.toOption

/-- The values a reader still holds (its successful decode outcomes). -/
def streamVals (s : Reader α) : List α := s.filterMap Except.toOption

/-- The reader of a segment file storing exactly the records `l`, under a
round-tripping codec. -/
def okStream (l : List α) : Reader α := l.map Except.ok

/-- The construction loop of `SortedIterator::new` for `Mode::Peek`: decode
one head per segment, propagating the first failure (including a clean EOF)
as the constructor's error. -/
def peekInit : List (Segment α) → Except IOError (List (Segment α) × List (Option α))
  | [] => Except.ok ([], [])
  | seg :: rest =>
    match seg.reader with
    | [] => Except.error IOError.unexpectedEof
    | Except.ok v :: r' =>
      (peekInit rest).map fun p => ({ seg with reader := r' } :: p.1, some v :: p.2)
    | Except.error e :: _ => Except.error e

/-- `SortedIterator::new` (the seek-to-start of each file is implicit: a
reader always starts at its beginning).  `heap_iter_segment_count` is the
configured heap-merge threshold (default 20). -/
def SortedIterator.new (pass_through_queue : Option (List α))
    (segment_readers : List (Reader α)) (count : Nat)
    (heap_iter_segment_count : Nat) : Except IOError (SortedIterator α) :=
  let segments : List (Segment α) :=
    segment_readers.map fun r => ⟨r, 0, false⟩
  match pass_through_queue with
  | some queue => Except.ok ⟨segments, Mode.Passthrough queue, count⟩
  | none =>
    if segments.length < heap_iter_segment_count then
      (peekInit segments).map fun p => ⟨p.1, Mode.Peek p.2, count⟩
    else
      Except.ok ⟨segments, Mode.Heap [], count⟩

/-- `sort_unstable_by`/`par_sort_unstable_by` with comparator `cmp`: some
permutation of the input sorted by `cmp` (order among comparator-equal
elements unspecified; the model uses insertion sort). -/
def sortByCmp (cmp : α → α → Ordering) (l : List α) : List α :=
  l.insertionSort (cle cmp)

/-- `struct PushExternalSorter` of `push.rs` (the stored comparator is passed
to each operation instead; `sort_dir`/`tempdir` are reduced to the
`dir_created` flag recording whether `get_sort_dir` ran). -/
structure PushExternalSorter (α : Type) where
  segment_size : Nat
  count : Nat
  segments_file : List (List α)
  buffer : List α
  dir_created : Bool
deriving DecidableEq, Repr

/-- `PushExternalSorter::new`. -/
def PushExternalSorter.new (segment_size : Nat) : PushExternalSorter α :=
  ⟨segment_size, 0, [], [], false⟩

/-- `PushExternalSorter::sort_and_write_segment`: sort the buffer with the
comparator, create the sort directory if needed, write the buffer out as one
new segment, drain the buffer. -/
def PushExternalSorter.sort_and_write_segment (cmp : α → α → Ordering)
    (st : PushExternalSorter α) : PushExternalSorter α :=
  { st with
    segments_file := st.segments_file ++ [sortByCmp cmp st.buffer]
    buffer := []
    dir_created := true }

/-- `PushExternalSorter::push`. -/
def PushExternalSorter.push (cmp : α → α → Ordering)
    (st : PushExternalSorter α) (item : α) : PushExternalSorter α :=
  let st := { st with buffer := st.buffer ++ [item], count := st.count + 1 }
  if st.segment_size < st.buffer.length then st.sort_and_write_segment cmp else st

/-- `PushExternalSorter::push_iter`. -/
def PushExternalSorter.push_iter (cmp : α → α → Ordering)
    (st : PushExternalSorter α) (items : List α) : PushExternalSorter α :=
  items.foldl (PushExternalSorter.push cmp) st

/-- `PushExternalSorter::done` (`heap_iter_segment_count` is the configured
heap-merge threshold the resulting iterator is built with). -/
def PushExternalSorter.done (cmp : α → α → Ordering)
    (heap_iter_segment_count : Nat) (st : PushExternalSorter α) :
    Except IOError (SortedIterator α) :=
  let (pass_through_queue, st) :=
    if !st.buffer.isEmpty && !st.segments_file.isEmpty then
      (none, st.sort_and_write_segment cmp)
    else
      (some (sortByCmp cmp st.buffer), st)
  SortedIterator.new pass_through_queue (st.segments_file.map okStream)
    st.count heap_iter_segment_count

/-- `ExternalSorter::sort` with the given configuration: push the whole input
through a fresh push engine, then finalize (per `push.rs`, the pull sorter is
this push engine driven by `push_iter` + `done`). -/
def externalSort (cmp : α → α → Ordering) (segment_size : Nat)
    (heap_iter_segment_count : Nat) (input : List α) :
    Except IOError (SortedIterator α) :=
  PushExternalSorter.done cmp heap_iter_segment_count
    (PushExternalSorter.push_iter cmp (PushExternalSorter.new segment_size) input)


/-! ## Order-theoretic facts about lawful comparators -/

open Batteries (TransCmp OrientedCmp)

theorem cle_total (cmp : α → α → Ordering) [TransCmp cmp] (a b : α) :
    cle cmp a b ∨ cle cmp b a := by
  unfold cle
  rcases h : cmp a b with _ | _ | _
  · exact Or.inl (by simp [h])
  · exact Or.inl (by simp [h])
  · exact Or.inr (by simp [OrientedCmp.cmp_eq_gt.mp h])

theorem cle_trans (cmp : α → α → Ordering) [TransCmp cmp] {a b c : α}
    (h₁ : cle cmp a b) (h₂ : cle cmp b c) : cle cmp a c :=
  TransCmp.le_trans h₁ h₂

theorem cle_of_not_lt (cmp : α → α → Ordering) [TransCmp cmp] {a b : α}
    (h : cmp b a ≠ Ordering.lt) : cle cmp a b :=
  OrientedCmp.cmp_ne_gt.mpr h

theorem not_lt_of_cle (cmp : α → α → Ordering) [TransCmp cmp] {a b : α}
    (h : cle cmp a b) : cmp b a ≠ Ordering.lt :=
  OrientedCmp.cmp_ne_gt.mp h

theorem cle_of_lt (cmp : α → α → Ordering) {a b : α}
    (h : cmp a b = Ordering.lt) : cle cmp a b := by
  intro hgt
  rw [h] at hgt
  cases hgt

theorem cle_refl (cmp : α → α → Ordering) [TransCmp cmp] (a : α) :
    cle cmp a a := by
  intro hgt
  have h : cmp a a = Ordering.eq := OrientedCmp.cmp_refl
  rw [h] at hgt
  cases hgt

theorem isTotal_cle (cmp : α → α → Ordering) [TransCmp cmp] :
    IsTotal α (cle cmp) := ⟨cle_total cmp⟩

theorem isTrans_cle (cmp : α → α → Ordering) [TransCmp cmp] :
    IsTrans α (cle cmp) := ⟨fun _ _ _ => cle_trans cmp⟩

theorem sortByCmp_perm (cmp : α → α → Ordering) (l : List α) :
    List.Perm (sortByCmp cmp l) l :=
  List.perm_insertionSort (cle cmp) l

theorem sortByCmp_sorted (cmp : α → α → Ordering) [TransCmp cmp] (l : List α) :
    List.Sorted (cle cmp) (sortByCmp cmp l) := by
  haveI := isTotal_cle cmp
  haveI := isTrans_cle cmp
  exact List.sorted_insertionSort (cle cmp) l

theorem sortByCmp_length (cmp : α → α → Ordering) (l : List α) :
    (sortByCmp cmp l).length = l.length :=
  (sortByCmp_perm cmp l).length_eq

/-- Two lists sorted by `cle cmp` that are permutations of each other and whose
elements are pairwise separated by the comparator (`.eq` only for equal
elements) are equal. -/
theorem sorted_perm_eq (cmp : α → α → Ordering) [TransCmp cmp] :
    ∀ {l₁ l₂ : List α}, List.Perm l₁ l₂ →
      List.Sorted (cle cmp) l₁ → List.Sorted (cle cmp) l₂ →
      (∀ a ∈ l₁, ∀ b ∈ l₁, cmp a b = Ordering.eq → a = b) →
      l₁ = l₂
  | [], _, hp, _, _, _ => by simpa using hp.nil_eq
  | a :: l₁, l₂, hp, hs₁, hs₂, hd => by
    have ha₂ : a ∈ l₂ := hp.subset (List.mem_cons_self a l₁)
    match l₂, ha₂, hp, hs₂ with
    | b :: l₂, _, hp, hs₂ =>
      have hab : a = b := by
        have hb₁ : b ∈ a :: l₁ := hp.symm.subset (List.mem_cons_self b l₂)
        rcases List.mem_cons.mp hb₁ with h | hb₁
        · exact h.symm
        · have h₁ : cle cmp a b := List.rel_of_sorted_cons hs₁ b hb₁
          have ha' : a ∈ b :: l₂ := hp.subset (List.mem_cons_self a l₁)
          rcases List.mem_cons.mp ha' with h | ha'
          · exact h
          · have h₂ : cle cmp b a := List.rel_of_sorted_cons hs₂ a ha'
            have heq : cmp a b = Ordering.eq := by
              rcases h : cmp a b with _ | _ | _
              · exact absurd (OrientedCmp.cmp_eq_gt.mpr h) h₂
              · rfl
              · exact absurd h h₁
            exact hd a (List.mem_cons_self a l₁) b (List.mem_cons.mpr (Or.inr hb₁)) heq
      subst hab
      have hp' : List.Perm l₁ l₂ := (List.perm_cons a).mp hp
      have := sorted_perm_eq cmp hp' hs₁.of_cons hs₂.of_cons
        (fun x hx y hy h => hd x (List.mem_cons_of_mem a hx) y (List.mem_cons_of_mem a hy) h)
      rw [this]

/-! ## Invariants of the accumulation (push) phase -/

/-- State invariant of `PushExternalSorter` after pushing the items of
`input` (in order) into a fresh engine with segment size `S`. -/
structure PushInv (cmp : α → α → Ordering) (S : Nat) (input : List α)
    (st : PushExternalSorter α) : Prop where
  seg_size : st.segment_size = S
  count_eq : st.count = input.length
  arith : st.count = st.segments_file.length * (S + 1) + st.buffer.length
  buf_le : st.buffer.length ≤ S
  perm : List.Perm (st.segments_file.flatten ++ st.buffer) input
  segs_sorted : ∀ seg ∈ st.segments_file, List.Sorted (cle cmp) seg
  segs_ne : ∀ seg ∈ st.segments_file, seg ≠ []
  dir : st.dir_created = !st.segments_file.isEmpty

theorem pushInv_new (cmp : α → α → Ordering) (S : Nat) :
    PushInv cmp S [] (PushExternalSorter.new (α := α) S) := by
  refine ⟨rfl, rfl, by simp [PushExternalSorter.new], Nat.zero_le S, ?_, ?_, ?_, rfl⟩
  · simp [PushExternalSorter.new]
  · intro seg h; simp [PushExternalSorter.new] at h
  · intro seg h; simp [PushExternalSorter.new] at h

/-- Unfolding of `PushExternalSorter.push` into its two outcomes. -/
theorem push_eq (cmp : α → α → Ordering) (st : PushExternalSorter α) (item : α) :
    PushExternalSorter.push cmp st item =
      if st.segment_size < st.buffer.length + 1 then
        ⟨st.segment_size, st.count + 1,
          st.segments_file ++ [sortByCmp cmp (st.buffer ++ [item])], [], true⟩
      else
        ⟨st.segment_size, st.count + 1, st.segments_file, st.buffer ++ [item],
          st.dir_created⟩ := by
  unfold PushExternalSorter.push PushExternalSorter.sort_and_write_segment
  dsimp only
  simp only [List.length_append, List.length_singleton]

theorem pushInv_push (cmp : α → α → Ordering) [TransCmp cmp] {S : Nat}
    {input : List α} {st : PushExternalSorter α} (h : PushInv cmp S input st)
    (item : α) :
    PushInv cmp S (input ++ [item]) (PushExternalSorter.push cmp st item) := by
  have hperm : List.Perm
      (st.segments_file.flatten ++ (st.buffer ++ [item])) (input ++ [item]) := by
    rw [← List.append_assoc]
    exact List.Perm.append_right _ h.perm
  rw [push_eq]
  by_cases hspill : st.segment_size < st.buffer.length + 1
  · rw [if_pos hspill]
    have hlen : st.buffer.length = S := by
      have h1 := h.buf_le
      have h2 := h.seg_size
      omega
    refine ⟨h.seg_size, by simp [h.count_eq], ?_, by simp, ?_, ?_, ?_, by simp⟩
    · simp only [List.length_append, List.length_singleton, List.length_nil,
        Nat.add_mul, Nat.one_mul]
      have := h.arith
      rw [h.seg_size] at hspill
      omega
    · simp only [List.flatten_append, List.flatten_cons, List.flatten_nil,
        List.append_nil]
      exact (List.Perm.append_left _ (sortByCmp_perm cmp _)).trans hperm
    · intro seg hseg
      rcases List.mem_append.mp hseg with hseg | hseg
      · exact h.segs_sorted seg hseg
      · rcases List.mem_singleton.mp hseg with rfl
        exact sortByCmp_sorted cmp _
    · intro seg hseg
      rcases List.mem_append.mp hseg with hseg | hseg
      · exact h.segs_ne seg hseg
      · rcases List.mem_singleton.mp hseg with rfl
        intro hnil
        have hlen0 : (sortByCmp cmp (st.buffer ++ [item])).length = 0 := by
          rw [hnil]; rfl
        rw [sortByCmp_length] at hlen0
        simp at hlen0
  · rw [if_neg hspill]
    refine ⟨h.seg_size, by simp [h.count_eq], ?_, ?_, hperm, h.segs_sorted,
      h.segs_ne, h.dir⟩
    · simp only [List.length_append, List.length_singleton]
      have := h.arith
      omega
    · simp only [List.length_append, List.length_singleton]
      have := h.seg_size
      omega

theorem pushInv_push_iter (cmp : α → α → Ordering) [TransCmp cmp] {S : Nat}
    (input : List α) :
    ∀ {acc : List α} {st : PushExternalSorter α}, PushInv cmp S acc st →
      PushInv cmp S (acc ++ input) (PushExternalSorter.push_iter cmp st input) := by
  induction input with
  | nil =>
    intro acc st h
    unfold PushExternalSorter.push_iter
    simpa using h
  | cons a l ih =>
    intro acc st h
    have h' := pushInv_push cmp h a
    have h'' := ih h'
    unfold PushExternalSorter.push_iter at h'' ⊢
    simp only [List.foldl_cons]
    simpa using h''

theorem pushInv_run (cmp : α → α → Ordering) [TransCmp cmp] (S : Nat)
    (input : List α) :
    PushInv cmp S input
      (PushExternalSorter.push_iter cmp (PushExternalSorter.new S) input) := by
  have h := pushInv_push_iter cmp input (pushInv_new cmp S)
  simpa using h


/-! ## Decode errors surfaced by the iterator are never clean end-of-stream -/

theorem fillSegment_err {si : Nat} :
    ∀ {fuel : Nat} {rd : Reader α} {hc : Nat} {dn : Bool}
      {heap : List (HeapItem α)} {seg' : Segment α} {heap' : List (HeapItem α)}
      {e : IOError},
      fillSegment si ⟨rd, hc, dn⟩ heap fuel = (seg', heap', some e) →
      ∃ code, e = IOError.other code := by
  intro fuel
  induction fuel with
  | zero =>
    intro rd hc dn heap seg' heap' e h
    simp [fillSegment] at h
  | succ n ih =>
    intro rd hc dn heap seg' heap' e h
    rcases rd with _ | ⟨(_ | code) | v, rest⟩
    · exact ih (by simpa [fillSegment] using h)
    · exact ih (by simpa [fillSegment] using h)
    · simp only [fillSegment, Prod.mk.injEq] at h
      obtain ⟨-, -, h3⟩ := h
      exact ⟨code, (Option.some_inj.mp h3).symm⟩
    · exact ih (by simpa [fillSegment] using h)

theorem fillHeapAux_err :
    ∀ {segs : List (Segment α)} {si : Nat} {heap : List (HeapItem α)}
      {segs' : List (Segment α)} {heap' : List (HeapItem α)} {e : IOError},
      fillHeapAux si segs heap = (segs', heap', some e) →
      ∃ code, e = IOError.other code := by
  intro segs
  induction segs with
  | nil =>
    intro si heap segs' heap' e h
    simp [fillHeapAux] at h
  | cons seg rest ih =>
    intro si heap segs' heap' e h
    rw [fillHeapAux] at h
    by_cases hdone : seg.done
    · rw [if_pos hdone] at h
      rcases hr : fillHeapAux (si + 1) rest heap with ⟨rs, hh, ee⟩
      rw [hr] at h
      simp only [Prod.mk.injEq] at h
      obtain ⟨-, -, h3⟩ := h
      exact ih (hr.trans (by rw [h3]))
    · rw [if_neg hdone] at h
      by_cases hcnt : seg.heap_count = 0
      · rw [if_pos hcnt] at h
        rcases hf : fillSegment si seg heap 20 with ⟨sg, hh, ee⟩
        rw [hf] at h
        rcases ee with _ | e2
        · dsimp only at h
          rcases hr : fillHeapAux (si + 1) rest hh with ⟨rs, hh2, ee2⟩
          rw [hr] at h
          simp only [Prod.mk.injEq] at h
          obtain ⟨-, -, h3⟩ := h
          exact ih (hr.trans (by rw [h3]))
        · dsimp only at h
          simp only [Prod.mk.injEq] at h
          obtain ⟨-, -, h3⟩ := h
          obtain rfl : e2 = e := Option.some_inj.mp h3
          obtain ⟨r0, c0, d0⟩ := seg
          exact fillSegment_err hf
      · rw [if_neg hcnt] at h
        rcases hr : fillHeapAux (si + 1) rest heap with ⟨rs, hh, ee⟩
        rw [hr] at h
        simp only [Prod.mk.injEq] at h
        obtain ⟨-, -, h3⟩ := h
        exact ih (hr.trans (by rw [h3]))

theorem fill_heap_err {segs : List (Segment α)} {heap : List (HeapItem α)}
    {segs' : List (Segment α)} {heap' : List (HeapItem α)} {e : IOError}
    (h : fill_heap segs heap = (segs', heap', some e)) :
    ∃ code, e = IOError.other code :=
  fillHeapAux_err h

theorem heapPopPhase_err (cmp : α → α → Ordering) {segs : List (Segment α)}
    {heap : List (HeapItem α)} {count : Nat} {e : IOError}
    {it' : SortedIterator α}
    (h : heapPopPhase cmp segs heap count = (some (Except.error e), it')) :
    ∃ code, e = IOError.other code := by
  rw [heapPopPhase] at h
  rcases hp : heapPopMin cmp heap with _ | ⟨item, heap2⟩
  · rw [hp] at h
    simp at h
  · rw [hp] at h
    dsimp only at h
    by_cases hz : (segs.getD item.segment_index Segment.junk).heap_count - 1 = 0
    · rw [if_pos hz] at h
      rcases hf : fill_heap (segs.set item.segment_index
          { segs.getD item.segment_index Segment.junk with
            heap_count := (segs.getD item.segment_index Segment.junk).heap_count - 1 })
          heap2 with ⟨sg2, hh2, ee2⟩
      rw [hf] at h
      rcases ee2 with _ | e2
      · dsimp only at h
        simp only [Prod.mk.injEq] at h
        obtain ⟨h1, -⟩ := h
        exact absurd (Option.some_inj.mp h1) (by simp)
      · dsimp only at h
        simp only [Prod.mk.injEq] at h
        obtain ⟨h1, -⟩ := h
        obtain rfl : e2 = e := Except.error.inj (Option.some_inj.mp h1)
        exact fill_heap_err hf
    · rw [if_neg hz] at h
      simp only [Prod.mk.injEq] at h
      obtain ⟨h1, -⟩ := h
      exact absurd (Option.some_inj.mp h1) (by simp)

theorem next_no_eof (cmp : α → α → Ordering) (it : SortedIterator α)
    {it' : SortedIterator α} {e : IOError}
    (h : SortedIterator.next cmp it = (some (Except.error e), it')) :
    ∃ code, e = IOError.other code := by
  rcases it with ⟨segs, mode, c⟩
  rcases mode with queue | heap | nv
  · rcases queue with _ | ⟨v, rest⟩ <;> simp [SortedIterator.next] at h
  · rw [SortedIterator.next] at h
    by_cases hemp : heap.isEmpty
    · rw [if_pos hemp] at h
      rcases hf : fill_heap segs heap with ⟨sg, hh, ee⟩
      rw [hf] at h
      rcases ee with _ | e2
      · exact heapPopPhase_err cmp h
      · dsimp only at h
        simp only [Prod.mk.injEq] at h
        obtain ⟨h1, -⟩ := h
        obtain rfl : e2 = e := Except.error.inj (Option.some_inj.mp h1)
        exact fill_heap_err hf
    · rw [if_neg hemp] at h
      exact heapPopPhase_err cmp h
  · rw [SortedIterator.next] at h
    rcases hs : selectSmallest cmp nv with _ | ⟨idx, v⟩
    · rw [hs] at h
      simp at h
    · rw [hs] at h
      dsimp only at h
      rcases hr : (segs.getD idx Segment.junk).reader with _ | ⟨(_ | code) | v', rest⟩
      all_goals rw [hr] at h
      all_goals simp only [decodeStep, Prod.mk.injEq] at h
      all_goals obtain ⟨h1, -⟩ := h
      · exact absurd (Option.some_inj.mp h1) (by simp)
      · exact absurd (Option.some_inj.mp h1) (by simp)
      · exact ⟨code, (Except.error.inj (Option.some_inj.mp h1)).symm⟩
      · exact absurd (Option.some_inj.mp h1) (by simp)

theorem drain_no_eof (cmp : α → α → Ordering) :
    ∀ (fuel : Nat) (it : SortedIterator α),
      Except.error IOError.unexpectedEof ∉ drain cmp fuel it := by
  intro fuel
  induction fuel with
  | zero => intro it; simp [drain]
  | succ n ih =>
    intro it
    rw [drain]
    rcases hn : SortedIterator.next cmp it with ⟨r, it'⟩
    rcases r with _ | r
    · simp
    · simp only [List.mem_cons, not_or]
      refine ⟨?_, ih it'⟩
      rintro rfl
      rcases next_no_eof cmp it hn with ⟨code, hcode⟩
      cases hcode

/-! ## The peek-mode selection scan -/

theorem selectSmallest_go_none (cmp : α → α → Ordering) :
    ∀ (l : List (Option α)) (idx : Nat) (best : Option (Nat × α)),
      selectSmallest.go cmp idx best l = none ↔
        (best = none ∧ ∀ o ∈ l, o = none) := by
  intro l
  induction l with
  | nil => intro idx best; simp [selectSmallest.go]
  | cons o rest ih =>
    intro idx best
    rcases o with _ | v
    · rw [selectSmallest.go]
      rw [ih]
      simp
    · rcases best with _ | ⟨bi, bv⟩
      · rw [selectSmallest.go]
        rw [ih]
        simp
      · rw [selectSmallest.go]
        by_cases hlt : cmp v bv = Ordering.lt
        · rw [if_pos hlt, ih]
          simp
        · rw [if_neg hlt, ih]
          simp

theorem selectSmallest_go_mem (cmp : α → α → Ordering) :
    ∀ (l : List (Option α)) (idx : Nat) (best : Option (Nat × α)) (i : Nat) (v : α),
      selectSmallest.go cmp idx best l = some (i, v) →
      best = some (i, v) ∨ ∃ j, l.get? j = some (some v) ∧ i = idx + j := by
  intro l
  induction l with
  | nil => intro idx best i v h; exact Or.inl (by simpa [selectSmallest.go] using h)
  | cons o rest ih =>
    intro idx best i v h
    rcases o with _ | v'
    · rw [selectSmallest.go] at h
      rcases ih _ _ _ _ h with h' | ⟨j, hj, rfl⟩
      · exact Or.inl h'
      · exact Or.inr ⟨j + 1, by simpa using hj, by omega⟩
    · rcases best with _ | ⟨bi, bv⟩
      · rw [selectSmallest.go] at h
        rcases ih _ _ _ _ h with h' | ⟨j, hj, rfl⟩
        · obtain ⟨rfl, rfl⟩ : idx = i ∧ v' = v := by
            simpa [Prod.ext_iff] using h'
          exact Or.inr ⟨0, by simp, by omega⟩
        · exact Or.inr ⟨j + 1, by simpa using hj, by omega⟩
      · rw [selectSmallest.go] at h
        by_cases hlt : cmp v' bv = Ordering.lt
        · rw [if_pos hlt] at h
          rcases ih _ _ _ _ h with h' | ⟨j, hj, rfl⟩
          · obtain ⟨rfl, rfl⟩ : idx = i ∧ v' = v := by
              simpa [Prod.ext_iff] using h'
            exact Or.inr ⟨0, by simp, by omega⟩
          · exact Or.inr ⟨j + 1, by simpa using hj, by omega⟩
        · rw [if_neg hlt] at h
          rcases ih _ _ _ _ h with h' | ⟨j, hj, rfl⟩
          · exact Or.inl h'
          · exact Or.inr ⟨j + 1, by simpa using hj, by omega⟩

theorem selectSmallest_go_min (cmp : α → α → Ordering) [TransCmp cmp] :
    ∀ (l : List (Option α)) (idx : Nat) (best : Option (Nat × α)) (i : Nat) (v : α),
      selectSmallest.go cmp idx best l = some (i, v) →
      (∀ bi bv, best = some (bi, bv) → cle cmp v bv) ∧
      (∀ w, some w ∈ l → cle cmp v w) := by
  intro l
  induction l with
  | nil =>
    intro idx best i v h
    rw [selectSmallest.go] at h
    subst h
    refine ⟨?_, by simp⟩
    intro bi bv hb
    obtain ⟨-, rfl⟩ : i = bi ∧ v = bv := by simpa [Prod.ext_iff] using hb
    exact cle_refl cmp _
  | cons o rest ih =>
    intro idx best i v h
    rcases o with _ | v'
    · rw [selectSmallest.go] at h
      obtain ⟨h1, h2⟩ := ih _ _ _ _ h
      exact ⟨h1, fun w hw => h2 w (by simpa using hw)⟩
    · rcases best with _ | ⟨bi, bv⟩
      · rw [selectSmallest.go] at h
        obtain ⟨h1, h2⟩ := ih _ _ _ _ h
        have hv' : cle cmp v v' := h1 idx v' rfl
        refine ⟨by simp, ?_⟩
        intro w hw
        rcases List.mem_cons.mp hw with hw | hw
        · obtain rfl : v' = w := Option.some_inj.mp hw.symm
          exact hv'
        · exact h2 w hw
      · rw [selectSmallest.go] at h
        by_cases hlt : cmp v' bv = Ordering.lt
        · rw [if_pos hlt] at h
          obtain ⟨h1, h2⟩ := ih _ _ _ _ h
          have hv' : cle cmp v v' := h1 idx v' rfl
          have hbv : cle cmp v bv := cle_of_lt cmp (TransCmp.le_lt_trans hv' hlt)
          refine ⟨?_, ?_⟩
          · intro bi' bv' hb
            obtain ⟨-, rfl⟩ : bi = bi' ∧ bv = bv' := by simpa [Prod.ext_iff] using hb
            exact hbv
          · intro w hw
            rcases List.mem_cons.mp hw with hw | hw
            · obtain rfl : v' = w := Option.some_inj.mp hw.symm
              exact hv'
            · exact h2 w hw
        · rw [if_neg hlt] at h
          obtain ⟨h1, h2⟩ := ih _ _ _ _ h
          have hbv : cle cmp v bv := h1 bi bv rfl
          have hbv' : cle cmp bv v' := cle_of_not_lt cmp hlt
          refine ⟨?_, ?_⟩
          · intro bi' bv' hb
            obtain ⟨-, rfl⟩ : bi = bi' ∧ bv = bv' := by simpa [Prod.ext_iff] using hb
            exact hbv
          · intro w hw
            rcases List.mem_cons.mp hw with hw | hw
            · obtain rfl : v' = w := Option.some_inj.mp hw.symm
              exact cle_trans cmp hbv hbv'
            · exact h2 w hw

theorem selectSmallest_eq_none (cmp : α → α → Ordering) (nv : List (Option α)) :
    selectSmallest cmp nv = none ↔ ∀ o ∈ nv, o = none := by
  rw [selectSmallest, selectSmallest_go_none]
  simp

theorem selectSmallest_get (cmp : α → α → Ordering) {nv : List (Option α)}
    {i : Nat} {v : α} (h : selectSmallest cmp nv = some (i, v)) :
    nv.get? i = some (some v) := by
  rw [selectSmallest] at h
  rcases selectSmallest_go_mem cmp nv 0 none i v h with h' | ⟨j, hj, rfl⟩
  · cases h'
  · simpa using hj

theorem selectSmallest_min (cmp : α → α → Ordering) [TransCmp cmp]
    {nv : List (Option α)} {i : Nat} {v : α}
    (h : selectSmallest cmp nv = some (i, v)) :
    ∀ w, some w ∈ nv → cle cmp v w := by
  rw [selectSmallest] at h
  exact (selectSmallest_go_min cmp nv 0 none i v h).2

/-! ## The modelled binary heap -/

theorem heapPopMin_eq_none (cmp : α → α → Ordering) (h : List (HeapItem α)) :
    heapPopMin cmp h = none ↔ h = [] := by
  cases h with
  | nil => simp [heapPopMin]
  | cons x xs =>
    simp only [heapPopMin]
    rcases hxs : heapPopMin cmp xs with _ | ⟨m, rest⟩
    · simp
    · dsimp only
      by_cases hlt : cmp m.value x.value = Ordering.lt
      · rw [if_pos hlt]; simp
      · rw [if_neg hlt]; simp

theorem heapPopMin_perm (cmp : α → α → Ordering) :
    ∀ {h : List (HeapItem α)} {x : HeapItem α} {h' : List (HeapItem α)},
      heapPopMin cmp h = some (x, h') → List.Perm h (x :: h') := by
  intro h
  induction h with
  | nil => intro x h' hh; simp [heapPopMin] at hh
  | cons y ys ih =>
    intro x h' hh
    rw [heapPopMin] at hh
    rcases hys : heapPopMin cmp ys with _ | ⟨m, rest⟩
    · rw [hys] at hh
      obtain ⟨rfl, rfl⟩ : y = x ∧ ([] : List (HeapItem α)) = h' := by
        simpa [Prod.ext_iff] using hh
      have : ys = [] := (heapPopMin_eq_none cmp ys).mp hys
      rw [this]
    · rw [hys] at hh
      dsimp only at hh
      by_cases hlt : cmp m.value y.value = Ordering.lt
      · rw [if_pos hlt] at hh
        obtain ⟨rfl, rfl⟩ : m = x ∧ y :: rest = h' := by
          simpa [Prod.ext_iff] using hh
        have hp := ih hys
        exact (hp.cons y).trans (List.Perm.swap m y rest)
      · rw [if_neg hlt] at hh
        obtain ⟨rfl, rfl⟩ : y = x ∧ ys = h' := by
          simpa [Prod.ext_iff] using hh
        exact List.Perm.refl _

theorem heapPopMin_min (cmp : α → α → Ordering) [TransCmp cmp] :
    ∀ {h : List (HeapItem α)} {x : HeapItem α} {h' : List (HeapItem α)},
      heapPopMin cmp h = some (x, h') →
      ∀ y ∈ h, cle cmp x.value y.value := by
  intro h
  induction h with
  | nil => intro x h' hh; simp [heapPopMin] at hh
  | cons z zs ih =>
    intro x h' hh y hy
    rw [heapPopMin] at hh
    rcases hzs : heapPopMin cmp zs with _ | ⟨m, rest⟩
    · rw [hzs] at hh
      obtain ⟨rfl, -⟩ : z = x ∧ ([] : List (HeapItem α)) = h' := by
        simpa [Prod.ext_iff] using hh
      have hz : zs = [] := (heapPopMin_eq_none cmp zs).mp hzs
      rcases List.mem_cons.mp hy with rfl | hy
      · exact cle_refl cmp _
      · rw [hz] at hy; cases hy
    · rw [hzs] at hh
      dsimp only at hh
      by_cases hlt : cmp m.value z.value = Ordering.lt
      · rw [if_pos hlt] at hh
        obtain ⟨rfl, -⟩ : m = x ∧ z :: rest = h' := by
          simpa [Prod.ext_iff] using hh
        rcases List.mem_cons.mp hy with rfl | hy
        · exact cle_of_lt cmp hlt
        · exact ih hzs y hy
      · rw [if_neg hlt] at hh
        obtain ⟨rfl, -⟩ : z = x ∧ zs = h' := by
          simpa [Prod.ext_iff] using hh
        rcases List.mem_cons.mp hy with rfl | hy
        · exact cle_refl cmp _
        · exact cle_trans cmp (cle_of_not_lt cmp hlt) (ih hzs y hy)

/-! ## Generic list helpers -/

theorem take_get_drop {β : Type} (l : List β) (i : Nat) (h : i < l.length) :
    l = l.take i ++ l.get ⟨i, h⟩ :: l.drop (i + 1) := by
  conv_lhs => rw [← List.take_append_drop i l]
  congr 1
  exact List.drop_eq_getElem_cons h

theorem set_at_length {β : Type} (l₁ l₂ : List β) (a b : β) :
    (l₁ ++ a :: l₂).set l₁.length b = l₁ ++ b :: l₂ := by
  induction l₁ with
  | nil => rfl
  | cons x xs ih => simpa [List.set] using ih

theorem getD_at_length {β : Type} (l₁ l₂ : List β) (a d : β) :
    (l₁ ++ a :: l₂).getD l₁.length d = a := by
  induction l₁ with
  | nil => rfl
  | cons x xs ih => simpa using ih

theorem zip_mem_right {β γ : Type} :
    ∀ {l₁ : List β} {l₂ : List γ}, l₁.length = l₂.length →
      ∀ b ∈ l₂, ∃ a, (a, b) ∈ l₁.zip l₂ := by
  intro l₁
  induction l₁ with
  | nil =>
    intro l₂ hlen b hb
    rw [List.length_nil] at hlen
    rw [List.eq_nil_of_length_eq_zero hlen.symm] at hb
    cases hb
  | cons x xs ih =>
    intro l₂ hlen b hb
    rcases l₂ with _ | ⟨y, ys⟩
    · cases hb
    · rcases List.mem_cons.mp hb with rfl | hb
      · exact ⟨x, List.mem_cons_self _ _⟩
      · obtain ⟨a, ha⟩ := ih (by simpa using hlen) b hb
        exact ⟨a, List.mem_cons_of_mem _ ha⟩

/-! ## Streams of successful decodes -/

theorem streamVals_okStream (l : List α) : streamVals (okStream l) = l := by
  induction l with
  | nil => rfl
  | cons a rest ih =>
    simp only [streamVals, okStream, List.map_cons, List.filterMap_cons,
      Except.toOption]
    simp only [streamVals, okStream] at ih
    rw [ih]

theorem okStream_append (l₁ l₂ : List α) :
    okStream (l₁ ++ l₂) = okStream l₁ ++ okStream l₂ := by
  simp [okStream]

theorem okStream_length (l : List α) : (okStream l).length = l.length := by
  simp [okStream]

/-! ## The multiset of not-yet-produced items -/

/-- All values the segment readers still hold, in segment order. -/
def segsVals (segs : List (Segment α)) : List α :=
  (segs.map fun s => streamVals s.reader).flatten

/-- The items the iterator can still produce (as a list; passthrough mode
reads only its queue and never touches the segments). -/
def remainingList (it : SortedIterator α) : List α :=
  match it.mode with
  | Mode.Passthrough queue => queue
  | Mode.Heap heap => heap.map HeapItem.value ++ segsVals it.segments
  | Mode.Peek next_values => next_values.filterMap id ++ segsVals it.segments

/-- The items the iterator can still produce, as a multiset. -/
def remaining (it : SortedIterator α) : Multiset α := (remainingList it : List α)

theorem segsVals_append (s₁ s₂ : List (Segment α)) :
    segsVals (s₁ ++ s₂) = segsVals s₁ ++ segsVals s₂ := by
  simp [segsVals]

theorem segsVals_cons (s : Segment α) (rest : List (Segment α)) :
    segsVals (s :: rest) = streamVals s.reader ++ segsVals rest := by
  simp [segsVals]

theorem card_remaining_le_fuel (it : SortedIterator α) :
    Multiset.card (remaining it) ≤ it.fuel := by
  rcases it with ⟨segs, mode, c⟩
  have hseg : (segsVals segs).length ≤ (segs.map fun s => s.reader.length).sum := by
    induction segs with
    | nil => simp [segsVals]
    | cons s rest ih =>
      rw [segsVals_cons]
      simp only [List.length_append, List.map_cons, List.sum_cons]
      have h1 : (streamVals s.reader).length ≤ s.reader.length :=
        List.length_filterMap_le _ _
      omega
  rcases mode with q | h | nv
  · simpa [remaining, remainingList, SortedIterator.fuel] using hseg
  · simp only [remaining, remainingList, SortedIterator.fuel, Multiset.coe_card,
      List.length_append, List.length_map]
    omega
  · simp only [remaining, remainingList, SortedIterator.fuel, Multiset.coe_card,
      List.length_append]
    have hf : (nv.filterMap id).length ≤ nv.countP Option.isSome := by
      induction nv with
      | nil => simp
      | cons o rest ih =>
        rcases o with _ | v
        · simpa [List.filterMap_cons, List.countP_cons] using ih
        · simp only [List.filterMap_cons, id, List.countP_cons]
          simp only [List.length_cons]
          simp at ih ⊢
          omega
    omega

/-! ## The generic drain argument: a min-popping process produces a sorted
permutation of its remaining items -/

theorem drain_spec (cmp : α → α → Ordering) [TransCmp cmp]
    (Inv : SortedIterator α → Prop)
    (hstep : ∀ it, Inv it →
      (remaining it = 0 → (SortedIterator.next cmp it).1 = none) ∧
      (remaining it ≠ 0 → ∃ v it',
        SortedIterator.next cmp it = (some (Except.ok v), it') ∧ Inv it' ∧
        remaining it = v ::ₘ remaining it' ∧
        ∀ w ∈ remaining it, cle cmp v w)) :
    ∀ (fuel : Nat) (it : SortedIterator α), Inv it →
      Multiset.card (remaining it) ≤ fuel →
      ∃ l : List α, drain cmp fuel it = l.map Except.ok ∧
        (l : Multiset α) = remaining it ∧ List.Sorted (cle cmp) l := by
  intro fuel
  induction fuel with
  | zero =>
    intro it hInv hcard
    refine ⟨[], by simp [drain], ?_, List.sorted_nil⟩
    have h0 : remaining it = 0 := Multiset.card_eq_zero.mp (Nat.le_zero.mp hcard)
    simp [h0]
  | succ n ih =>
    intro it hInv hcard
    by_cases h0 : remaining it = 0
    · have hnone := (hstep it hInv).1 h0
      rcases hn : SortedIterator.next cmp it with ⟨r, it'⟩
      rw [hn] at hnone
      dsimp at hnone
      subst hnone
      refine ⟨[], ?_, by simp [h0], List.sorted_nil⟩
      rw [drain, hn]
      rfl
    · obtain ⟨v, it', hn, hInv', hrem', hmin⟩ := (hstep it hInv).2 h0
      have hcard' : Multiset.card (remaining it') ≤ n := by
        have := congrArg Multiset.card hrem'
        rw [Multiset.card_cons] at this
        omega
      obtain ⟨l, hdrain, hl, hsorted⟩ := ih it' hInv' hcard'
      refine ⟨v :: l, ?_, ?_, ?_⟩
      · rw [drain, hn]
        dsimp only
        rw [hdrain]
        rfl
      · have hc : (v :: l : Multiset α) = v ::ₘ (l : Multiset α) := rfl
        rw [hc, hl, hrem']
      · rw [List.sorted_cons]
        refine ⟨?_, hsorted⟩
        intro b hb
        have hb' : b ∈ (l : Multiset α) := by simpa using hb
        rw [hl] at hb'
        refine hmin b ?_
        rw [hrem']
        exact Multiset.mem_cons_of_mem hb' 

/-! ## Passthrough mode -/

/-- Invariant of a passthrough iterator: its queue is sorted. -/
def PassInv (cmp : α → α → Ordering) (it : SortedIterator α) : Prop :=
  ∃ queue, it.mode = Mode.Passthrough queue ∧ List.Sorted (cle cmp) queue

theorem pass_step (cmp : α → α → Ordering) [TransCmp cmp]
    (it : SortedIterator α) (hInv : PassInv cmp it) :
    (remaining it = 0 → (SortedIterator.next cmp it).1 = none) ∧
    (remaining it ≠ 0 → ∃ v it',
      SortedIterator.next cmp it = (some (Except.ok v), it') ∧ PassInv cmp it' ∧
      remaining it = v ::ₘ remaining it' ∧
      ∀ w ∈ remaining it, cle cmp v w) := by
  obtain ⟨queue, hm, hs⟩ := hInv
  rcases it with ⟨segs, mode, c⟩
  dsimp only at hm
  subst hm
  rcases queue with _ | ⟨v, rest⟩
  · constructor
    · intro _
      rfl
    · intro hrem
      exact absurd rfl hrem
  · constructor
    · intro hrem
      simp [remaining, remainingList] at hrem
    · intro _
      refine ⟨v, ⟨segs, Mode.Passthrough rest, c⟩, rfl, ⟨rest, rfl, hs.of_cons⟩, rfl, ?_⟩
      · intro w hw
        simp only [remaining, remainingList, Multiset.mem_coe, List.mem_cons] at hw
        rcases hw with rfl | hw
        · exact cle_refl cmp w
        · exact List.rel_of_sorted_cons hs w hw

/-! ## Peek (linear-scan) mode -/

/-- Invariant of one cached head and its segment in peek mode: the reader is a
pure stream of sorted values, the cached head (if any) is a lower bound of the
stream, and an exhausted cache means an exhausted stream. -/
def PeekPairInv (cmp : α → α → Ordering) (p : Option α × Segment α) : Prop :=
  p.2.reader = okStream (streamVals p.2.reader) ∧
  List.Sorted (cle cmp) (streamVals p.2.reader) ∧
  (∀ v, p.1 = some v → ∀ w ∈ streamVals p.2.reader, cle cmp v w) ∧
  (p.1 = none → p.2.reader = [])

/-- Invariant of a peek-mode iterator. -/
def PeekInv (cmp : α → α → Ordering) (it : SortedIterator α) : Prop :=
  ∃ nv, it.mode = Mode.Peek nv ∧ nv.length = it.segments.length ∧
    ∀ p ∈ nv.zip it.segments, PeekPairInv cmp p

theorem segsVals_mem {segs : List (Segment α)} {w : α} :
    w ∈ segsVals segs ↔ ∃ s ∈ segs, w ∈ streamVals s.reader := by
  simp [segsVals, List.mem_flatten]

theorem peek_allNone_segsEmpty (cmp : α → α → Ordering) {nv : List (Option α)}
    {segs : List (Segment α)} (hlen : nv.length = segs.length)
    (hpairs : ∀ p ∈ nv.zip segs, PeekPairInv cmp p)
    (hnone : ∀ o ∈ nv, o = none) : segsVals segs = [] := by
  rw [List.eq_nil_iff_forall_not_mem]
  intro w hw
  obtain ⟨s, hs, hws⟩ := segsVals_mem.mp hw
  obtain ⟨o, ho⟩ := zip_mem_right hlen s hs
  have hp := hpairs _ ho
  have hon : o = none := hnone o (List.mem_zip ho).1
  have hempty : s.reader = [] := hp.2.2.2 hon
  rw [hempty] at hws
  simp [streamVals] at hws

/-- Unfolding of the `Mode::Peek` branch of `next` once a smallest cached head
has been selected. -/
theorem next_peek_eq (cmp : α → α → Ordering) (segs : List (Segment α))
    (nv : List (Option α)) (c : Nat) {i : Nat} {v : α}
    (hsel : selectSmallest cmp nv = some (i, v)) :
    SortedIterator.next cmp ⟨segs, Mode.Peek nv, c⟩ =
      match (segs.getD i Segment.junk).reader with
      | [] =>
        (some (Except.ok v),
          ⟨segs.set i { segs.getD i Segment.junk with reader := [] },
            Mode.Peek (nv.set i none), c⟩)
      | Except.ok v' :: rest =>
        (some (Except.ok v),
          ⟨segs.set i { segs.getD i Segment.junk with reader := rest },
            Mode.Peek (nv.set i (some v')), c⟩)
      | Except.error IOError.unexpectedEof :: rest =>
        (some (Except.ok v),
          ⟨segs.set i { segs.getD i Segment.junk with reader := rest },
            Mode.Peek (nv.set i none), c⟩)
      | Except.error (IOError.other code) :: rest =>
        (some (Except.error (IOError.other code)),
          ⟨segs.set i { segs.getD i Segment.junk with reader := rest },
            Mode.Peek (nv.set i none), c⟩) := by
  rw [SortedIterator.next, hsel]
  dsimp only
  rcases hr : (segs.getD i Segment.junk).reader with _ | ⟨(_ | code) | v', rest⟩ <;>
    rfl

theorem peek_step (cmp : α → α → Ordering) [TransCmp cmp]
    (it : SortedIterator α) (hInv : PeekInv cmp it) :
    (remaining it = 0 → (SortedIterator.next cmp it).1 = none) ∧
    (remaining it ≠ 0 → ∃ v it',
      SortedIterator.next cmp it = (some (Except.ok v), it') ∧ PeekInv cmp it' ∧
      remaining it = v ::ₘ remaining it' ∧
      ∀ w ∈ remaining it, cle cmp v w) := by
  obtain ⟨nv, hm, hlen, hpairs⟩ := hInv
  rcases it with ⟨segs, mode, c⟩
  dsimp only at hm hlen hpairs
  subst hm
  rcases hsel : selectSmallest cmp nv with _ | ⟨i, v⟩
  · -- nothing cached: every cached head is gone, hence every stream is empty
    have hnone := (selectSmallest_eq_none cmp nv).mp hsel
    have hseg0 : segsVals segs = [] := peek_allNone_segsEmpty cmp hlen hpairs hnone
    have hfm : nv.filterMap id = [] :=
      List.filterMap_eq_nil.mpr (fun o ho => by rw [hnone o ho]; rfl)
    constructor
    · intro _
      rw [SortedIterator.next, hsel]
    · intro hrem
      exact absurd (by simp [remaining, remainingList, hseg0, hfm]) hrem
  · -- a smallest cached head exists: it is produced and replaced
    have hget : nv.get? i = some (some v) := selectSmallest_get cmp hsel
    have hi : i < nv.length := (List.get?_eq_some.mp hget).1
    have hi' : i < segs.length := hlen ▸ hi
    have hmin := selectSmallest_min cmp hsel
    -- positional decompositions at index i
    have hnveq : nv = nv.take i ++ some v :: nv.drop (i + 1) := by
      have := take_get_drop nv i hi
      rwa [(List.get?_eq_some.mp hget).2] at this
    have hsegeq : segs = segs.take i ++ segs.get ⟨i, hi'⟩ :: segs.drop (i + 1) :=
      take_get_drop segs i hi'
    set A₁ := nv.take i with hA₁
    set A₂ := nv.drop (i + 1) with hA₂
    set B₁ := segs.take i with hB₁
    set B₂ := segs.drop (i + 1) with hB₂
    set seg := segs.get ⟨i, hi'⟩ with hseg
    have hA₁len : A₁.length = i := by
      rw [hA₁, List.length_take]
      omega
    have hB₁len : B₁.length = i := by
      rw [hB₁, List.length_take]
      omega
    have hgetD : segs.getD i Segment.junk = seg := by
      conv_lhs => rw [hsegeq]
      rw [← hB₁len]
      exact getD_at_length B₁ B₂ seg Segment.junk
    have hzip : nv.zip segs = A₁.zip B₁ ++ (some v, seg) :: A₂.zip B₂ := by
      conv_lhs => rw [hnveq, hsegeq]
      rw [List.zip_append (by rw [hA₁len, hB₁len])]
      rfl
    have hpair : PeekPairInv cmp (some v, seg) := by
      refine hpairs _ ?_
      rw [hzip]
      exact List.mem_append.mpr (Or.inr (List.mem_cons_self _ _))
    obtain ⟨hpure, hsorted, hhead, -⟩ := hpair
    dsimp only at hpure hsorted hhead
    have hnvset : ∀ o : Option α, nv.set i o = A₁ ++ o :: A₂ := by
      intro o
      conv_lhs => rw [hnveq, ← hA₁len, set_at_length]
    have hfm : nv.filterMap id = A₁.filterMap id ++ v :: A₂.filterMap id := by
      conv_lhs => rw [hnveq]
      simp [List.filterMap_append, List.filterMap_cons]
    have hsv : segsVals segs =
        segsVals B₁ ++ (streamVals seg.reader ++ segsVals B₂) := by
      conv_lhs => rw [hsegeq]
      rw [segsVals_append, segsVals_cons]
    -- the selected head is a lower bound of everything remaining
    have hminall : ∀ w ∈ remaining (⟨segs, Mode.Peek nv, c⟩ : SortedIterator α),
        cle cmp v w := by
      intro w hw
      simp only [remaining, remainingList, Multiset.mem_coe, List.mem_append] at hw
      rcases hw with hw | hw
      · obtain ⟨o, ho, hid⟩ := List.mem_filterMap.mp hw
        obtain rfl : o = some w := by simpa using hid
        exact hmin w ho
      · obtain ⟨s, hs, hws⟩ := segsVals_mem.mp hw
        obtain ⟨o, ho⟩ := zip_mem_right hlen s hs
        have hp := hpairs _ ho
        rcases o with _ | u
        · have hre : s.reader = [] := hp.2.2.2 rfl
          rw [hre] at hws
          simp [streamVals] at hws
        · have hu : cle cmp v u := hmin u (List.of_mem_zip ho).1
          have huw : cle cmp u w := hp.2.2.1 u rfl w hws
          exact cle_trans cmp hu huw
    refine ⟨fun h0 => ?_, fun _ => ?_⟩
    · -- remaining cannot be zero: it contains v
      exfalso
      have hv : v ∈ remaining (⟨segs, Mode.Peek nv, c⟩ : SortedIterator α) := by
        simp only [remaining, remainingList, Multiset.mem_coe, List.mem_append]
        exact Or.inl (List.mem_filterMap.mpr ⟨some v, List.get?_mem hget, rfl⟩)
      rw [h0] at hv
      exact Multiset.not_mem_zero v hv
    · rcases hl : streamVals seg.reader with _ | ⟨v', l'⟩
      · -- the selected segment is exhausted: clean EOF retires it
        have hreader : seg.reader = [] := by rw [hpure, hl]; rfl
        have hnext := next_peek_eq cmp segs nv c hsel
        rw [hgetD, hreader] at hnext
        dsimp only at hnext
        have hrec : ({ seg with reader := ([] : Reader α) } : Segment α) = seg := by
          rcases hsegrec : seg with ⟨r, hc, dn⟩
          rw [hsegrec] at hreader
          dsimp only at hreader
          rw [hreader]
        have hsegset : segs.set i { seg with reader := ([] : Reader α) } = segs := by
          rw [hrec]
          conv_rhs => rw [hsegeq]
          conv_lhs => rw [hsegeq, ← hB₁len, set_at_length]
        refine ⟨v, _, hnext, ?_, ?_, hminall⟩
        · -- invariant is preserved
          refine ⟨nv.set i none, rfl, by simp [hlen], ?_⟩
          intro p hp
          dsimp only at hp
          rw [hsegset, hnvset none, hsegeq,
            List.zip_append (by rw [hA₁len, hB₁len]), List.zip_cons_cons] at hp
          rcases List.mem_append.mp hp with hp' | hp'
          · refine hpairs _ ?_
            rw [hzip]
            exact List.mem_append.mpr (Or.inl hp')
          · rcases List.mem_cons.mp hp' with rfl | hp''
            · exact ⟨by simp [hreader, streamVals, okStream],
                by simp [hreader, streamVals],
                by simp [hreader, streamVals], fun _ => hreader⟩
            · refine hpairs _ ?_
              rw [hzip]
              exact List.mem_append.mpr (Or.inr (List.mem_cons_of_mem _ hp''))
        · -- one copy of `v` is removed from the remaining items
          simp only [remaining, remainingList]
          rw [hsegset, hnvset none, hfm]
          simp only [List.filterMap_append, List.filterMap_cons, id_eq]
          simp only [← Multiset.coe_add, ← Multiset.cons_coe, ← Multiset.singleton_add]
          abel
      · -- the selected segment still has items: its head is re-cached
        have hreader : seg.reader = Except.ok v' :: okStream l' := by
          rw [hpure, hl]
          rfl
        have hnext := next_peek_eq cmp segs nv c hsel
        rw [hgetD, hreader] at hnext
        dsimp only at hnext
        have hsegset : segs.set i { seg with reader := okStream l' } =
            B₁ ++ { seg with reader := okStream l' } :: B₂ := by
          conv_lhs => rw [hsegeq, ← hB₁len, set_at_length]
        have hvals' : streamVals ({ seg with reader := okStream l' } : Segment α).reader = l' := by
          dsimp only
          exact streamVals_okStream l'
        have hsorted' : List.Sorted (cle cmp) (v' :: l') := hl ▸ hsorted
        refine ⟨v, _, hnext, ?_, ?_, hminall⟩
        · -- invariant is preserved
          refine ⟨nv.set i (some v'), rfl, by simp [hlen], ?_⟩
          intro p hp
          dsimp only at hp
          rw [hsegset, hnvset (some v'),
            List.zip_append (by rw [hA₁len, hB₁len]), List.zip_cons_cons] at hp
          rcases List.mem_append.mp hp with hp' | hp'
          · refine hpairs _ ?_
            rw [hzip]
            exact List.mem_append.mpr (Or.inl hp')
          · rcases List.mem_cons.mp hp' with rfl | hp''
            · refine ⟨?_, ?_, ?_, ?_⟩
              · dsimp only
                rw [hvals']
              · rw [hvals']
                exact hsorted'.of_cons
              · intro u hu w hw
                obtain rfl : v' = u := Option.some_inj.mp hu
                rw [hvals'] at hw
                exact List.rel_of_sorted_cons hsorted' w hw
              · intro hcon
                cases hcon
            · refine hpairs _ ?_
              rw [hzip]
              exact List.mem_append.mpr (Or.inr (List.mem_cons_of_mem _ hp''))
        · -- the produced copy of `v` is removed; `v'` moves from stream to cache
          simp only [remaining, remainingList]
          rw [hsegset, hnvset (some v'), hfm, segsVals_append, segsVals_cons,
            hvals', hsv, hl]
          simp only [List.filterMap_append, List.filterMap_cons, id_eq]
          simp only [← Multiset.coe_add, ← Multiset.cons_coe, ← Multiset.singleton_add]
          abel

/-! ## Heap mode: closed form of one refill pass -/

/-- The effect of one refill pass of `fill_heap` on a single segment whose
reader is a pure stream: done or still-represented segments are skipped,
otherwise the first 20 stream values move into the heap (EOF inside the
batch marks the segment done). -/
def refillSeg (seg : Segment α) : Segment α :=
  if seg.done = true ∨ seg.heap_count ≠ 0 then seg
  else
    ⟨okStream ((streamVals seg.reader).drop 20),
      seg.heap_count + min 20 (streamVals seg.reader).length,
      decide ((streamVals seg.reader).length < 20)⟩

/-- The heap items one refill pass contributes for the segment at index `k`. -/
def refillAdd (k : Nat) (seg : Segment α) : List (HeapItem α) :=
  if seg.done = true ∨ seg.heap_count ≠ 0 then []
  else ((streamVals seg.reader).take 20).map fun v => ⟨k, v⟩

/-- The heap items one refill pass contributes for the segments from index
`k` on. -/
def refillAddsFrom (k : Nat) : List (Segment α) → List (HeapItem α)
  | [] => []
  | seg :: rest => refillAdd k seg ++ refillAddsFrom (k + 1) rest

theorem fillSegment_done (si : Nat) (hc : Nat) (heap : List (HeapItem α)) :
    ∀ fuel, fillSegment si ⟨[], hc, true⟩ heap fuel = (⟨[], hc, true⟩, heap, none) := by
  intro fuel
  induction fuel with
  | zero => rfl
  | succ n ih => rw [fillSegment]; exact ih

theorem fillSegment_pure (si : Nat) :
    ∀ (fuel : Nat) (l : List α) (hc : Nat) (heap : List (HeapItem α)),
      fillSegment si ⟨okStream l, hc, false⟩ heap fuel =
        (⟨okStream (l.drop fuel), hc + min fuel l.length,
            decide (l.length < fuel)⟩,
          heap ++ (l.take fuel).map (fun v => ⟨si, v⟩), none) := by
  intro fuel
  induction fuel with
  | zero =>
    intro l hc heap
    simp [fillSegment]
  | succ n ih =>
    intro l hc heap
    rcases l with _ | ⟨v, l'⟩
    · rw [show okStream ([] : List α) = [] from rfl, fillSegment]
      dsimp only
      rw [fillSegment_done]
      simp [okStream]
    · rw [show okStream (v :: l') = Except.ok v :: okStream l' from rfl, fillSegment]
      dsimp only
      rw [ih l' (hc + 1) (heapPush heap ⟨si, v⟩)]
      refine congrArg₂ Prod.mk ?_ (congrArg₂ Prod.mk ?_ rfl)
      · have hmin : hc + 1 + min n l'.length = hc + min (n + 1) (l'.length + 1) := by
          rw [Nat.succ_min_succ]
          omega
        have hdec : decide (l'.length < n) = decide (l'.length + 1 < n + 1) := by
          simp [Nat.succ_lt_succ_iff]
        rw [List.drop_succ_cons, List.length_cons, hmin, hdec]
      · rw [List.take_succ_cons, List.map_cons, heapPush, List.append_assoc]
        rfl

theorem fillHeapAux_pure :
    ∀ (segs : List (Segment α)) (k : Nat) (heap : List (HeapItem α)),
      (∀ seg ∈ segs, seg.reader = okStream (streamVals seg.reader)) →
      fillHeapAux k segs heap =
        (segs.map refillSeg, heap ++ refillAddsFrom k segs, none) := by
  intro segs
  induction segs with
  | nil => intro k heap _; simp [fillHeapAux, refillAddsFrom]
  | cons seg rest ih =>
    intro k heap hpure
    have hpure_seg := hpure seg (List.mem_cons_self _ _)
    have hpure_rest := fun s hs => hpure s (List.mem_cons_of_mem _ hs)
    rw [fillHeapAux]
    by_cases hdone : seg.done
    · rw [if_pos hdone, ih (k + 1) heap hpure_rest]
      have h1 : refillSeg seg = seg := by
        rw [refillSeg, if_pos (Or.inl hdone)]
      have h2 : refillAdd k seg = [] := by
        rw [refillAdd, if_pos (Or.inl hdone)]
      rw [List.map_cons, h1, refillAddsFrom, h2, List.nil_append]
    · rw [if_neg hdone]
      by_cases hcnt : seg.heap_count = 0
      · rw [if_pos hcnt]
        have hnotskip : ¬(seg.done = true ∨ seg.heap_count ≠ 0) := by
          push_neg
          exact ⟨hdone, hcnt⟩
        have hfill : fillSegment k seg heap 20 =
            (refillSeg seg, heap ++ refillAdd k seg, none) := by
          have hrec : seg = ⟨okStream (streamVals seg.reader), seg.heap_count, false⟩ := by
            rcases seg with ⟨r, c, d⟩
            simp only [Bool.not_eq_true] at hdone
            dsimp only at hpure_seg ⊢
            rw [← hpure_seg, hdone]
          conv_lhs => rw [hrec]
          rw [fillSegment_pure, refillSeg, if_neg hnotskip, refillAdd, if_neg hnotskip]
        rw [hfill]
        dsimp only
        rw [ih (k + 1) (heap ++ refillAdd k seg) hpure_rest]
        rw [List.map_cons, refillAddsFrom, List.append_assoc]
      · rw [if_neg hcnt, ih (k + 1) heap hpure_rest]
        have h1 : refillSeg seg = seg := by
          rw [refillSeg, if_pos (Or.inr hcnt)]
        have h2 : refillAdd k seg = [] := by
          rw [refillAdd, if_pos (Or.inr hcnt)]
        rw [List.map_cons, h1, refillAddsFrom, h2, List.nil_append]

/-! ## Properties of one refill pass -/

theorem refillSeg_pure {seg : Segment α}
    (h : seg.reader = okStream (streamVals seg.reader)) :
    (refillSeg seg).reader = okStream (streamVals (refillSeg seg).reader) := by
  rw [refillSeg]
  by_cases hskip : seg.done = true ∨ seg.heap_count ≠ 0
  · rw [if_pos hskip]; exact h
  · rw [if_neg hskip]
    dsimp only
    rw [streamVals_okStream]

theorem refillSeg_vals {seg : Segment α} :
    streamVals (refillSeg seg).reader =
      if seg.done = true ∨ seg.heap_count ≠ 0 then streamVals seg.reader
      else (streamVals seg.reader).drop 20 := by
  rw [refillSeg]
  by_cases hskip : seg.done = true ∨ seg.heap_count ≠ 0
  · rw [if_pos hskip, if_pos hskip]
  · rw [if_neg hskip, if_neg hskip]
    dsimp only
    rw [streamVals_okStream]

theorem refillSeg_sorted (cmp : α → α → Ordering) {seg : Segment α}
    (h : List.Sorted (cle cmp) (streamVals seg.reader)) :
    List.Sorted (cle cmp) (streamVals (refillSeg seg).reader) := by
  rw [refillSeg_vals]
  by_cases hskip : seg.done = true ∨ seg.heap_count ≠ 0
  · rw [if_pos hskip]; exact h
  · rw [if_neg hskip]
    exact h.sublist (List.drop_sublist 20 _)

theorem refillSeg_done_empty {seg : Segment α}
    (hpure : seg.reader = okStream (streamVals seg.reader))
    (h : seg.done = true → seg.reader = []) :
    (refillSeg seg).done = true → (refillSeg seg).reader = [] := by
  rw [refillSeg]
  by_cases hskip : seg.done = true ∨ seg.heap_count ≠ 0
  · rw [if_pos hskip]; exact h
  · rw [if_neg hskip]
    dsimp only
    intro hd
    have hlt : (streamVals seg.reader).length < 20 := of_decide_eq_true hd
    rw [List.drop_eq_nil_of_le (by omega)]
    rfl

theorem refillSeg_coverage {seg : Segment α} :
    (refillSeg seg).done = false → 1 ≤ (refillSeg seg).heap_count := by
  rw [refillSeg]
  by_cases hskip : seg.done = true ∨ seg.heap_count ≠ 0
  · rw [if_pos hskip]
    intro hd
    rcases hskip with hs | hs
    · rw [hs] at hd; cases hd
    · omega
  · rw [if_neg hskip]
    dsimp only
    intro hd
    have hge : ¬((streamVals seg.reader).length < 20) := of_decide_eq_false hd
    have : min 20 (streamVals seg.reader).length = 20 := by omega
    omega

theorem refillSeg_skip {seg : Segment α}
    (h : seg.done = true ∨ seg.heap_count ≠ 0) : refillSeg seg = seg := by
  rw [refillSeg, if_pos h]

theorem refillSeg_count {seg : Segment α} :
    (refillSeg seg).heap_count = seg.heap_count + (refillAdd k seg).length := by
  rw [refillSeg, refillAdd]
  by_cases hskip : seg.done = true ∨ seg.heap_count ≠ 0
  · rw [if_pos hskip, if_pos hskip]
    rfl
  · rw [if_neg hskip, if_neg hskip]
    dsimp only
    rw [List.length_map, List.length_take]

theorem refillAdd_mem {k : Nat} {seg : Segment α} {hi : HeapItem α}
    (h : hi ∈ refillAdd k seg) :
    hi.segment_index = k ∧ hi.value ∈ (streamVals seg.reader).take 20 := by
  rw [refillAdd] at h
  by_cases hskip : seg.done = true ∨ seg.heap_count ≠ 0
  · rw [if_pos hskip] at h; cases h
  · rw [if_neg hskip] at h
    obtain ⟨v, hv, rfl⟩ := List.mem_map.mp h
    exact ⟨rfl, hv⟩

theorem refillAdd_dominates (cmp : α → α → Ordering) [TransCmp cmp]
    {k : Nat} {seg : Segment α}
    (hsorted : List.Sorted (cle cmp) (streamVals seg.reader))
    {hi : HeapItem α} (h : hi ∈ refillAdd k seg) :
    ∀ w ∈ streamVals (refillSeg seg).reader, cle cmp hi.value w := by
  intro w hw
  obtain ⟨-, hval⟩ := refillAdd_mem h
  rw [refillSeg_vals] at hw
  have hskip : ¬(seg.done = true ∨ seg.heap_count ≠ 0) := by
    by_contra hc
    rw [refillAdd, if_pos hc] at h
    cases h
  rw [if_neg hskip] at hw
  have hsplit := hsorted
  rw [← List.take_append_drop 20 (streamVals seg.reader)] at hsplit
  have := (List.pairwise_append.mp hsplit).2.2
  exact this hi.value hval w hw

theorem refillAddsFrom_mem :
    ∀ {segs : List (Segment α)} {k : Nat} {hi : HeapItem α},
      hi ∈ refillAddsFrom k segs →
      ∃ p, p < segs.length ∧ hi ∈ refillAdd (k + p) (segs.getD p Segment.junk) := by
  intro segs
  induction segs with
  | nil => intro k hi h; cases h
  | cons seg rest ih =>
    intro k hi h
    rw [refillAddsFrom] at h
    rcases List.mem_append.mp h with h' | h'
    · exact ⟨0, by simp, by simpa using h'⟩
    · obtain ⟨p, hp, hmem⟩ := ih h'
      exact ⟨p + 1, by simpa using hp, by
        have : k + 1 + p = k + (p + 1) := by omega
        rw [← this]
        simpa using hmem⟩

theorem refillAddsFrom_lb :
    ∀ {segs : List (Segment α)} {k : Nat} {hi : HeapItem α},
      hi ∈ refillAddsFrom k segs → k ≤ hi.segment_index := by
  intro segs
  induction segs with
  | nil => intro k hi h; cases h
  | cons seg rest ih =>
    intro k hi h
    rw [refillAddsFrom] at h
    rcases List.mem_append.mp h with h' | h'
    · rw [(refillAdd_mem h').1]
    · have := ih h'
      omega

theorem refillAddsFrom_countP :
    ∀ (segs : List (Segment α)) (k p : Nat), p < segs.length →
      (refillAddsFrom k segs).countP (fun hi => hi.segment_index == k + p) =
        (refillAdd (k + p) (segs.getD p Segment.junk)).length := by
  intro segs
  induction segs with
  | nil => intro k p hp; simp at hp
  | cons seg rest ih =>
    intro k p hp
    rw [refillAddsFrom, List.countP_append]
    rcases p with _ | p'
    · have h1 : (refillAdd (k + 0) seg).length =
          (refillAdd k seg).length := by rw [Nat.add_zero]
      have h2 : (refillAdd k seg).countP (fun hi => hi.segment_index == k + 0) =
          (refillAdd k seg).length := by
        rw [List.countP_eq_length]
        intro hi hmem
        have := (refillAdd_mem hmem).1
        simp [this]
      have h3 : (refillAddsFrom (k + 1) rest).countP
          (fun hi => hi.segment_index == k + 0) = 0 := by
        rw [List.countP_eq_zero]
        intro hi hmem
        have := refillAddsFrom_lb hmem
        simp only [beq_iff_eq]
        omega
      rw [h2, h3, Nat.add_zero]
      simp [refillAdd]
    · have h1 : (refillAdd k seg).countP
          (fun hi => hi.segment_index == k + (p' + 1)) = 0 := by
        rw [List.countP_eq_zero]
        intro hi hmem
        have := (refillAdd_mem hmem).1
        simp only [beq_iff_eq, this]
        omega
      have h3 : k + (p' + 1) = k + 1 + p' := by omega
      rw [h1, Nat.zero_add, h3]
      rw [ih (k + 1) p' (by simpa using hp)]
      rfl

theorem refillAdd_vals (k : Nat) (seg : Segment α) :
    (refillAdd k seg).map HeapItem.value =
      if seg.done = true ∨ seg.heap_count ≠ 0 then []
      else (streamVals seg.reader).take 20 := by
  rw [refillAdd]
  by_cases hskip : seg.done = true ∨ seg.heap_count ≠ 0
  · rw [if_pos hskip, if_pos hskip]
    rfl
  · rw [if_neg hskip, if_neg hskip, List.map_map]
    have hcomp : (HeapItem.value ∘ fun v => (⟨k, v⟩ : HeapItem α)) = id := rfl
    rw [hcomp, List.map_id]

theorem refill_multiset :
    ∀ (segs : List (Segment α)) (k : Nat),
      ((refillAddsFrom k segs).map HeapItem.value : Multiset α) +
          (segsVals (segs.map refillSeg) : List α) =
        (segsVals segs : List α) := by
  intro segs
  induction segs with
  | nil => intro k; simp [refillAddsFrom, segsVals]
  | cons seg rest ih =>
    intro k
    rw [refillAddsFrom, List.map_cons, segsVals_cons, segsVals_cons, List.map_append]
    have hseg : ((refillAdd k seg).map HeapItem.value : Multiset α) +
        (streamVals (refillSeg seg).reader : List α) =
        (streamVals seg.reader : List α) := by
      rw [refillAdd_vals, refillSeg_vals]
      by_cases hskip : seg.done = true ∨ seg.heap_count ≠ 0
      · rw [if_pos hskip, if_pos hskip]
        simp
      · rw [if_neg hskip, if_neg hskip]
        have := List.take_append_drop 20 (streamVals seg.reader)
        calc ((streamVals seg.reader).take 20 : Multiset α) +
              ((streamVals seg.reader).drop 20 : List α)
            = (((streamVals seg.reader).take 20 ++
                (streamVals seg.reader).drop 20 : List α) : Multiset α) := by
              rw [← Multiset.coe_add]
          _ = _ := by rw [this]
    have hrest := ih (k + 1)
    simp only [← Multiset.coe_add] at hseg hrest ⊢
    simp only [← Multiset.coe_add, ← Multiset.cons_coe, ← Multiset.singleton_add] at *
    calc (((refillAdd k seg).map HeapItem.value : List α) : Multiset α) +
          ((refillAddsFrom (k+1) rest).map HeapItem.value : List α) +
          (((streamVals (refillSeg seg).reader : List α) : Multiset α) +
            (segsVals (rest.map refillSeg) : List α)) =
        ((((refillAdd k seg).map HeapItem.value : List α) : Multiset α) +
          (streamVals (refillSeg seg).reader : List α)) +
          ((((refillAddsFrom (k+1) rest).map HeapItem.value : List α) : Multiset α) +
            (segsVals (rest.map refillSeg) : List α)) := by abel
      _ = ((streamVals seg.reader : List α) : Multiset α) +
            (segsVals rest : List α) := by rw [hseg, hrest]

/-! ## The heap-mode invariant -/

theorem getD_map_refillSeg :
    ∀ (segs : List (Segment α)) (p : Nat), p < segs.length →
      (segs.map refillSeg).getD p Segment.junk = refillSeg (segs.getD p Segment.junk) := by
  intro segs
  induction segs with
  | nil => intro p hp; simp at hp
  | cons seg rest ih =>
    intro p hp
    rcases p with _ | p'
    · rfl
    · exact ih p' (by simpa using hp)

theorem getD_lt_mem :
    ∀ (segs : List (Segment α)) (p : Nat), p < segs.length →
      segs.getD p Segment.junk ∈ segs := by
  intro segs
  induction segs with
  | nil => intro p hp; simp at hp
  | cons seg rest ih =>
    intro p hp
    rcases p with _ | p'
    · exact List.mem_cons_self _ _
    · exact List.mem_cons_of_mem _ (ih p' (by simpa using hp))

theorem mem_getD :
    ∀ (segs : List (Segment α)) (seg : Segment α), seg ∈ segs →
      ∃ p, p < segs.length ∧ segs.getD p Segment.junk = seg := by
  intro segs
  induction segs with
  | nil => intro seg h; cases h
  | cons s rest ih =>
    intro seg h
    rcases List.mem_cons.mp h with rfl | h'
    · exact ⟨0, by simp, rfl⟩
    · obtain ⟨p, hp, hgd⟩ := ih seg h'
      exact ⟨p + 1, by simpa using hp, hgd⟩

/-- Invariant tying a heap-mode segment list and its binary heap together:
pure sorted streams, retired segments exhausted, each segment's `heap_count`
equal to its number of live heap candidates, candidates in range and each a
lower bound of its segment's not-yet-decoded values, and (unless the heap is
empty, as at construction) every unretired segment represented in the heap. -/
structure HeapInvAux (cmp : α → α → Ordering) (segs : List (Segment α))
    (heap : List (HeapItem α)) : Prop where
  pure : ∀ seg ∈ segs, seg.reader = okStream (streamVals seg.reader)
  sorted : ∀ seg ∈ segs, List.Sorted (cle cmp) (streamVals seg.reader)
  done_empty : ∀ seg ∈ segs, seg.done = true → seg.reader = []
  counts : ∀ p, p < segs.length →
    (segs.getD p Segment.junk).heap_count =
      heap.countP (fun hi => hi.segment_index == p)
  idx_lt : ∀ hi ∈ heap, hi.segment_index < segs.length
  dominates : ∀ hi ∈ heap,
    ∀ w ∈ streamVals (segs.getD hi.segment_index Segment.junk).reader,
      cle cmp hi.value w

/-- Invariant of a heap-mode iterator: the structural invariant, and (except
right after construction, when the heap has not yet been filled) every
unretired segment keeps at least one candidate in the heap. -/
def HeapInv (cmp : α → α → Ordering) (it : SortedIterator α) : Prop :=
  ∃ heap, it.mode = Mode.Heap heap ∧ HeapInvAux cmp it.segments heap ∧
    (heap = [] ∨ ∀ seg ∈ it.segments, seg.done = false → 1 ≤ seg.heap_count)

/-- One `fill_heap` pass on an invariant state: the closed form applies, the
invariant is restored, every unretired segment ends up represented in the
heap, and no item is lost or duplicated. -/
theorem fill_heap_inv (cmp : α → α → Ordering) [TransCmp cmp]
    {segs : List (Segment α)} {heap : List (HeapItem α)}
    (hinv : HeapInvAux cmp segs heap) :
    fill_heap segs heap = (segs.map refillSeg, heap ++ refillAddsFrom 0 segs, none) ∧
    HeapInvAux cmp (segs.map refillSeg) (heap ++ refillAddsFrom 0 segs) ∧
    (∀ seg' ∈ segs.map refillSeg, seg'.done = false → 1 ≤ seg'.heap_count) ∧
    (((heap ++ refillAddsFrom 0 segs).map HeapItem.value : Multiset α) +
        (segsVals (segs.map refillSeg) : List α) =
      ((heap.map HeapItem.value : List α) : Multiset α) + (segsVals segs : List α)) := by
  have heqn : fill_heap segs heap =
      (segs.map refillSeg, heap ++ refillAddsFrom 0 segs, none) :=
    fillHeapAux_pure segs 0 heap hinv.pure
  have hcov : ∀ seg' ∈ segs.map refillSeg, seg'.done = false → 1 ≤ seg'.heap_count := by
    intro seg' hmem
    obtain ⟨seg, -, rfl⟩ := List.mem_map.mp hmem
    exact refillSeg_coverage
  refine ⟨heqn, ?_, hcov, ?_⟩
  · constructor
    · intro seg' hmem
      obtain ⟨seg, hs, rfl⟩ := List.mem_map.mp hmem
      exact refillSeg_pure (hinv.pure seg hs)
    · intro seg' hmem
      obtain ⟨seg, hs, rfl⟩ := List.mem_map.mp hmem
      exact refillSeg_sorted cmp (hinv.sorted seg hs)
    · intro seg' hmem
      obtain ⟨seg, hs, rfl⟩ := List.mem_map.mp hmem
      exact refillSeg_done_empty (hinv.pure seg hs) (hinv.done_empty seg hs)
    · intro p hp
      rw [List.length_map] at hp
      rw [getD_map_refillSeg segs p hp, List.countP_append]
      have hadds := refillAddsFrom_countP segs 0 p hp
      simp only [Nat.zero_add] at hadds
      rw [hadds, refillSeg_count, ← hinv.counts p hp]
    · intro hi hmem
      rw [List.length_map]
      rcases List.mem_append.mp hmem with h' | h'
      · exact hinv.idx_lt hi h'
      · obtain ⟨p, hp, hmem'⟩ := refillAddsFrom_mem h'
        have := (refillAdd_mem hmem').1
        omega
    · intro hi hmem w hw
      rcases List.mem_append.mp hmem with h' | h'
      · have hlt := hinv.idx_lt hi h'
        rw [getD_map_refillSeg segs hi.segment_index hlt] at hw
        have hskip : (segs.getD hi.segment_index Segment.junk).done = true ∨
            (segs.getD hi.segment_index Segment.junk).heap_count ≠ 0 := by
          by_contra hc
          push_neg at hc
          have hcnt := hinv.counts hi.segment_index hlt
          rw [hc.2] at hcnt
          have hpos : 0 < heap.countP (fun x => x.segment_index == hi.segment_index) :=
            List.countP_pos_iff.mpr ⟨hi, h', by simp⟩
          omega
        rw [refillSeg_skip hskip] at hw
        exact hinv.dominates hi h' w hw
      · obtain ⟨p, hp, hmem'⟩ := refillAddsFrom_mem h'
        simp only [Nat.zero_add] at hmem'
        have hidx : hi.segment_index = p := (refillAdd_mem hmem').1
        rw [hidx, getD_map_refillSeg segs p hp] at hw
        exact refillAdd_dominates cmp
          (hinv.sorted _ (getD_lt_mem segs p hp)) hmem' w hw
  · rw [List.map_append]
    have := refill_multiset segs 0
    simp only [← Multiset.coe_add] at this ⊢
    simp only [← Multiset.coe_add, ← Multiset.cons_coe, ← Multiset.singleton_add] at *
    calc ((heap.map HeapItem.value : List α) : Multiset α) +
          ((refillAddsFrom 0 segs).map HeapItem.value : List α) +
          (segsVals (segs.map refillSeg) : List α) =
        ((heap.map HeapItem.value : List α) : Multiset α) +
          ((((refillAddsFrom 0 segs).map HeapItem.value : List α) : Multiset α) +
            (segsVals (segs.map refillSeg) : List α)) := by abel
      _ = ((heap.map HeapItem.value : List α) : Multiset α) + (segsVals segs : List α) := by
          rw [this]


theorem getD_set_self :
    ∀ (l : List (Segment α)) (p : Nat), p < l.length → ∀ (b : Segment α),
      (l.set p b).getD p Segment.junk = b := by
  intro l
  induction l with
  | nil => intro p hp; simp at hp
  | cons x xs ih =>
    intro p hp b
    rcases p with _ | p'
    · rfl
    · exact ih p' (by simpa using hp) b

theorem getD_set_ne :
    ∀ (l : List (Segment α)) (p q : Nat), p ≠ q → ∀ (b : Segment α),
      (l.set p b).getD q Segment.junk = l.getD q Segment.junk := by
  intro l
  induction l with
  | nil => intro p q hne b; simp [List.set]
  | cons x xs ih =>
    intro p q hne b
    rcases p with _ | p'
    · rcases q with _ | q'
      · exact absurd rfl hne
      · rfl
    · rcases q with _ | q'
      · rfl
      · exact ih p' q' (by omega) b

/-- Replacing a segment by one with the same reader leaves the remaining
stream values unchanged. -/
theorem segsVals_set_same_reader :
    ∀ (segs : List (Segment α)) (j : Nat) (b : Segment α),
      b.reader = (segs.getD j Segment.junk).reader →
      segsVals (segs.set j b) = segsVals segs := by
  intro segs
  induction segs with
  | nil => intro j b _; rfl
  | cons s rest ih =>
    intro j b hread
    rcases j with _ | j'
    · rw [List.set_cons_zero, segsVals_cons, segsVals_cons, hread]
      rfl
    · rw [List.set_cons_succ, segsVals_cons, segsVals_cons, ih j' b hread]

/-- The pop phase of a heap-mode `next` call on an invariant state with full
coverage: nothing to pop means nothing remains; otherwise the popped value is
a minimum of all not-yet-yielded items, the invariant is preserved and
exactly one copy of the popped value leaves the remaining multiset. -/
theorem heapPopPhase_spec (cmp : α → α → Ordering) [TransCmp cmp]
    {segs : List (Segment α)} {heap : List (HeapItem α)} (c : Nat)
    (hinv : HeapInvAux cmp segs heap)
    (hstrong : ∀ seg ∈ segs, seg.done = false → 1 ≤ seg.heap_count) :
    (((heap.map HeapItem.value : List α) : Multiset α) + (segsVals segs : List α) = 0 →
      heapPopPhase cmp segs heap c = (none, ⟨segs, Mode.Heap heap, c⟩)) ∧
    (((heap.map HeapItem.value : List α) : Multiset α) + (segsVals segs : List α) ≠ 0 →
      ∃ v it', heapPopPhase cmp segs heap c = (some (Except.ok v), it') ∧
        HeapInv cmp it' ∧
        ((heap.map HeapItem.value : List α) : Multiset α) + (segsVals segs : List α) =
          v ::ₘ remaining it' ∧
        ∀ w ∈ ((heap.map HeapItem.value : List α) : Multiset α) +
          ((segsVals segs : List α) : Multiset α), cle cmp v w) := by
  rcases hpm : heapPopMin cmp heap with _ | ⟨item, heap2⟩
  · -- empty heap: with full coverage, nothing remains at all
    have hheap : heap = [] := (heapPopMin_eq_none cmp heap).mp hpm
    subst hheap
    constructor
    · intro _
      rw [heapPopPhase, hpm]
    · intro hrem
      exfalso
      apply hrem
      have hseg0 : segsVals segs = [] := by
        rw [List.eq_nil_iff_forall_not_mem]
        intro w hw
        obtain ⟨s, hs, hws⟩ := segsVals_mem.mp hw
        rcases hdone : s.done with _ | _
        · have h1 := hstrong s hs hdone
          obtain ⟨p, hp, hgd⟩ := mem_getD segs s hs
          have h2 := hinv.counts p hp
          rw [hgd] at h2
          simp at h2
          omega
        · have hempty := hinv.done_empty s hs hdone
          rw [hempty] at hws
          simp [streamVals] at hws
      rw [hseg0]
      simp
  · -- pop the heap minimum
    have hperm : List.Perm heap (item :: heap2) := heapPopMin_perm cmp hpm
    have hmem : item ∈ heap := hperm.mem_iff.mpr (List.mem_cons_self _ _)
    have hj : item.segment_index < segs.length := hinv.idx_lt item hmem
    have hmin := heapPopMin_min cmp hpm
    have hcntj : (segs.getD item.segment_index Segment.junk).heap_count =
        heap.countP (fun hi => hi.segment_index == item.segment_index) :=
      hinv.counts item.segment_index hj
    have hcntj2 : heap.countP (fun hi => hi.segment_index == item.segment_index) =
        1 + heap2.countP (fun hi => hi.segment_index == item.segment_index) := by
      rw [hperm.countP_eq, List.countP_cons]
      simp
      omega
    -- the common lower-bound fact
    have hminall : ∀ w ∈ ((heap.map HeapItem.value : List α) : Multiset α) +
        ((segsVals segs : List α) : Multiset α), cle cmp item.value w := by
      intro w hw
      rcases Multiset.mem_add.mp hw with hw | hw
      · obtain ⟨hi, hhi, rfl⟩ := List.mem_map.mp (Multiset.mem_coe.mp hw)
        exact hmin hi hhi
      · obtain ⟨s, hs, hws⟩ := segsVals_mem.mp (Multiset.mem_coe.mp hw)
        obtain ⟨p, hp, hgd⟩ := mem_getD segs s hs
        by_cases hcp : 0 < heap.countP (fun hi => hi.segment_index == p)
        · obtain ⟨hi, hhi, hpi⟩ := List.countP_pos_iff.mp hcp
          have hpi' : hi.segment_index = p := by simpa using hpi
          have h1 : cle cmp item.value hi.value := hmin hi hhi
          have h2 : cle cmp hi.value w := by
            have hdom := hinv.dominates hi hhi
            rw [hpi', hgd] at hdom
            exact hdom w hws
          exact cle_trans cmp h1 h2
        · have hc0 : (segs.getD p Segment.junk).heap_count = 0 := by
            have := hinv.counts p hp
            omega
          rcases hdone : s.done with _ | _
          · have h1 := hstrong s hs hdone
            rw [hgd] at hc0
            omega
          · have hempty := hinv.done_empty s hs hdone
            rw [hempty] at hws
            simp [streamVals] at hws
    constructor
    · intro hrem
      exfalso
      have hv : item.value ∈ ((heap.map HeapItem.value : List α) : Multiset α) +
          ((segsVals segs : List α) : Multiset α) :=
        Multiset.mem_add.mpr (Or.inl (Multiset.mem_coe.mpr
          (List.mem_map.mpr ⟨item, hmem, rfl⟩)))
      rw [hrem] at hv
      exact Multiset.not_mem_zero _ hv
    · intro _
      rw [heapPopPhase, hpm]
      dsimp only
      set segj := segs.getD item.segment_index Segment.junk with hsegj
      set segs2 := segs.set item.segment_index
        ⟨segj.reader, segj.heap_count - 1, segj.done⟩ with hsegs2
      have hlen2 : segs2.length = segs.length := by rw [hsegs2, List.length_set]
      have hsv2 : segsVals segs2 = segsVals segs :=
        segsVals_set_same_reader segs item.segment_index _ rfl
      have hvperm : List.Perm (heap.map HeapItem.value)
          (item.value :: heap2.map HeapItem.value) := hperm.map HeapItem.value
      have hinv2 : HeapInvAux cmp segs2 heap2 := by
        constructor
        · intro s hs
          rcases List.mem_or_eq_of_mem_set hs with hs' | rfl
          · exact hinv.pure s hs'
          · exact hinv.pure segj (getD_lt_mem segs item.segment_index hj)
        · intro s hs
          rcases List.mem_or_eq_of_mem_set hs with hs' | rfl
          · exact hinv.sorted s hs'
          · exact hinv.sorted segj (getD_lt_mem segs item.segment_index hj)
        · intro s hs
          rcases List.mem_or_eq_of_mem_set hs with hs' | rfl
          · exact hinv.done_empty s hs'
          · exact hinv.done_empty segj (getD_lt_mem segs item.segment_index hj)
        · intro p hp
          rw [hlen2] at hp
          by_cases hpj : p = item.segment_index
          · subst hpj
            rw [hsegs2, getD_set_self segs item.segment_index hj]
            dsimp only
            omega
          · rw [hsegs2, getD_set_ne segs item.segment_index p (fun h => hpj h.symm)]
            have hsame : heap2.countP (fun hi => hi.segment_index == p) =
                heap.countP (fun hi => hi.segment_index == p) := by
              rw [hperm.countP_eq, List.countP_cons]
              have hne : (item.segment_index == p) = false := by
                simp only [beq_eq_false_iff_ne, ne_eq]
                exact fun h => hpj (h ▸ rfl)
              rw [hne]
              simp
            rw [hsame]
            exact hinv.counts p hp
        · intro hi hhi
          rw [hlen2]
          exact hinv.idx_lt hi (hperm.mem_iff.mpr (List.mem_cons_of_mem _ hhi))
        · intro hi hhi w hw
          have hhi' : hi ∈ heap := hperm.mem_iff.mpr (List.mem_cons_of_mem _ hhi)
          have hlt := hinv.idx_lt hi hhi'
          by_cases hij : hi.segment_index = item.segment_index
          · rw [hij, hsegs2, getD_set_self segs item.segment_index hj] at hw
            have hdom := hinv.dominates hi hhi'
            rw [hij] at hdom
            exact hdom w hw
          · rw [hsegs2,
              getD_set_ne segs item.segment_index hi.segment_index
                (fun h => hij h.symm)] at hw
            exact hinv.dominates hi hhi' w hw
      by_cases hz : segj.heap_count - 1 = 0
      · rw [if_pos hz]
        obtain ⟨heqn, hinv3, hstrong3, hms⟩ := fill_heap_inv cmp hinv2
        rw [heqn]
        refine ⟨item.value, _, rfl,
          ⟨heap2 ++ refillAddsFrom 0 segs2, rfl, hinv3, Or.inr hstrong3⟩, ?_, hminall⟩
        have hrem' : remaining
            (⟨segs2.map refillSeg, Mode.Heap (heap2 ++ refillAddsFrom 0 segs2), c⟩ :
              SortedIterator α) =
            ((heap2.map HeapItem.value : List α) : Multiset α) +
              ((segsVals segs2 : List α) : Multiset α) := by
          simp only [remaining, remainingList]
          rw [Multiset.coe_add]
          exact hms
        rw [hrem', ← hsv2]
        calc ((heap.map HeapItem.value : List α) : Multiset α) +
              ((segsVals segs2 : List α) : Multiset α) =
            ((item.value :: heap2.map HeapItem.value : List α) : Multiset α) +
              ((segsVals segs2 : List α) : Multiset α) := by
              rw [Multiset.coe_eq_coe.mpr hvperm]
          _ = item.value ::ₘ (((heap2.map HeapItem.value : List α) : Multiset α) +
                ((segsVals segs2 : List α) : Multiset α)) := by
              rw [← Multiset.cons_coe, Multiset.cons_add]
      · rw [if_neg hz]
        have hstrong2 : ∀ s ∈ segs2, s.done = false → 1 ≤ s.heap_count := by
          intro s hs hdone
          rcases List.mem_or_eq_of_mem_set hs with hs' | rfl
          · exact hstrong s hs' hdone
          · dsimp only
            omega
        refine ⟨item.value, _, rfl, ⟨heap2, rfl, hinv2, Or.inr hstrong2⟩, ?_, hminall⟩
        have hrem' : remaining (⟨segs2, Mode.Heap heap2, c⟩ : SortedIterator α) =
            ((heap2.map HeapItem.value : List α) : Multiset α) +
              ((segsVals segs2 : List α) : Multiset α) := by
          simp only [remaining, remainingList]
          rw [Multiset.coe_add]
        rw [hrem', ← hsv2]
        calc ((heap.map HeapItem.value : List α) : Multiset α) +
              ((segsVals segs2 : List α) : Multiset α) =
            ((item.value :: heap2.map HeapItem.value : List α) : Multiset α) +
              ((segsVals segs2 : List α) : Multiset α) := by
              rw [Multiset.coe_eq_coe.mpr hvperm]
          _ = item.value ::ₘ (((heap2.map HeapItem.value : List α) : Multiset α) +
                ((segsVals segs2 : List α) : Multiset α)) := by
              rw [← Multiset.cons_coe, Multiset.cons_add]

/-- One step of a heap-mode iterator satisfies the min-popping specification. -/
theorem heap_step (cmp : α → α → Ordering) [TransCmp cmp]
    (it : SortedIterator α) (hInv : HeapInv cmp it) :
    (remaining it = 0 → (SortedIterator.next cmp it).1 = none) ∧
    (remaining it ≠ 0 → ∃ v it',
      SortedIterator.next cmp it = (some (Except.ok v), it') ∧ HeapInv cmp it' ∧
      remaining it = v ::ₘ remaining it' ∧
      ∀ w ∈ remaining it, cle cmp v w) := by
  obtain ⟨heap, hm, hinv, hcov⟩ := hInv
  rcases it with ⟨segs, mode, c⟩
  dsimp only at hm hinv hcov
  subst hm
  have hremeq : remaining (⟨segs, Mode.Heap heap, c⟩ : SortedIterator α) =
      ((heap.map HeapItem.value : List α) : Multiset α) +
        ((segsVals segs : List α) : Multiset α) := by
    simp only [remaining, remainingList]
    rw [Multiset.coe_add]
  by_cases hemp : heap.isEmpty
  · -- initial state: the heap must be filled first
    have hnil : heap = [] := List.isEmpty_iff.mp hemp
    subst hnil
    obtain ⟨heqn, hinv3, hstrong3, hms⟩ := fill_heap_inv cmp hinv
    have hnext : SortedIterator.next cmp (⟨segs, Mode.Heap [], c⟩ : SortedIterator α) =
        heapPopPhase cmp (segs.map refillSeg) ([] ++ refillAddsFrom 0 segs) c := by
      rw [SortedIterator.next, if_pos hemp, heqn]
    obtain ⟨hzero, hpop⟩ := heapPopPhase_spec cmp c hinv3 hstrong3
    have hsame : remaining (⟨segs, Mode.Heap [], c⟩ : SortedIterator α) =
        ((([] ++ refillAddsFrom 0 segs).map HeapItem.value : List α) : Multiset α) +
          ((segsVals (segs.map refillSeg) : List α) : Multiset α) := by
      rw [hremeq, hms]
    constructor
    · intro h0
      rw [hnext, hzero (by rw [← hsame]; exact h0)]
    · intro h0
      obtain ⟨v, it', heq, hinv', hrem', hmins⟩ := hpop (by rw [← hsame]; exact h0)
      exact ⟨v, it', by rw [hnext, heq], hinv', by rw [hsame, hrem'],
        fun w hw => hmins w (by rw [← hsame]; exact hw)⟩
  · -- live state: pop directly, coverage comes from the invariant
    have hne : heap ≠ [] := by
      intro h
      rw [h] at hemp
      exact hemp rfl
    have hstrong : ∀ seg ∈ segs, seg.done = false → 1 ≤ seg.heap_count := by
      rcases hcov with h | h
      · exact absurd h hne
      · exact h
    have hnext : SortedIterator.next cmp (⟨segs, Mode.Heap heap, c⟩ : SortedIterator α) =
        heapPopPhase cmp segs heap c := by
      rw [SortedIterator.next, if_neg hemp]
    obtain ⟨hzero, hpop⟩ := heapPopPhase_spec cmp c hinv hstrong
    constructor
    · intro h0
      rw [hnext, hzero (by rw [← hremeq]; exact h0)]
    · intro h0
      obtain ⟨v, it', heq, hinv', hrem', hmins⟩ := hpop (by rw [← hremeq]; exact h0)
      exact ⟨v, it', by rw [hnext, heq], hinv', by rw [hremeq, hrem'],
        fun w hw => hmins w (by rw [← hremeq]; exact hw)⟩

/-! ## Construction of the iterator from the finalized engine -/

theorem okItems_map_ok (l : List α) : okItems (l.map Except.ok) = l := by
  induction l with
  | nil => rfl
  | cons a rest ih =>
    simp only [okItems, List.map_cons, List.filterMap_cons, Except.toOption]
    simp only [okItems] at ih
    rw [ih]

theorem segsVals_okSegs (ls : List (List α)) :
    segsVals (ls.map fun l => (⟨okStream l, 0, false⟩ : Segment α)) = ls.flatten := by
  induction ls with
  | nil => rfl
  | cons l rest ih =>
    rw [List.map_cons, segsVals_cons, ih]
    dsimp only
    rw [streamVals_okStream, List.flatten_cons]

theorem peekInit_pure :
    ∀ (ls : List (List α)), (∀ l ∈ ls, l ≠ []) →
      peekInit (ls.map fun l => (⟨okStream l, 0, false⟩ : Segment α)) =
        Except.ok (ls.map fun l => (⟨okStream l.tail, 0, false⟩ : Segment α),
          ls.map fun l => l.head?) := by
  intro ls
  induction ls with
  | nil => intro _; rfl
  | cons l rest ih =>
    intro hne
    rcases l with _ | ⟨v, l'⟩
    · exact absurd rfl (hne [] (List.mem_cons_self _ _))
    · rw [List.map_cons, peekInit]
      have hr : ((⟨okStream (v :: l'), 0, false⟩ : Segment α)).reader =
          Except.ok v :: okStream l' := rfl
      rw [hr] at *
      dsimp only
      rw [ih (fun x hx => hne x (List.mem_cons_of_mem _ hx))]
      rfl


/-- After the construction decode of peek mode, the cached heads plus the
remaining stream contents are exactly the segment files' contents. -/
theorem peekInit_remaining (ls : List (List α)) (hne : ∀ l ∈ ls, l ≠ []) :
    (((ls.map fun l => l.head?).filterMap id : List α) : Multiset α) +
      ((segsVals (ls.map fun l => (⟨okStream l.tail, 0, false⟩ : Segment α)) :
        List α) : Multiset α) =
      ((ls.flatten : List α) : Multiset α) := by
  induction ls with
  | nil => rfl
  | cons l rest ih =>
    have ih' := ih (fun x hx => hne x (List.mem_cons_of_mem _ hx))
    rcases hlv : l with _ | ⟨v, l'⟩
    · exact absurd hlv (hne l (List.mem_cons_self _ _))
    · subst hlv
      simp only [List.map_cons, List.flatten_cons, segsVals_cons, List.head?_cons,
        List.tail_cons, List.filterMap_cons, id_eq]
      rw [streamVals_okStream]
      simp only [← Multiset.coe_add, ← Multiset.cons_coe, ← Multiset.singleton_add] at ih' ⊢
      rw [← ih']
      abel

/-- The iterator state built by the peek-mode branch of `SortedIterator::new`
from sorted, non-empty segment files satisfies the peek invariant, and its
remaining items are exactly the segments' contents. -/
theorem peekInv_init (cmp : α → α → Ordering) [TransCmp cmp]
    (ls : List (List α)) (c : Nat)
    (hsorted : ∀ l ∈ ls, List.Sorted (cle cmp) l)
    (hne : ∀ l ∈ ls, l ≠ []) :
    PeekInv cmp ⟨ls.map fun l => (⟨okStream l.tail, 0, false⟩ : Segment α),
      Mode.Peek (ls.map fun l => l.head?), c⟩ ∧
    remaining (⟨ls.map fun l => (⟨okStream l.tail, 0, false⟩ : Segment α),
      Mode.Peek (ls.map fun l => l.head?), c⟩ : SortedIterator α) =
      ((ls.flatten : List α) : Multiset α) := by
  constructor
  · refine ⟨ls.map fun l => l.head?, rfl, by simp, ?_⟩
    intro p hp
    dsimp only at hp
    rw [List.zip_map'] at hp
    obtain ⟨l, hl, rfl⟩ := List.mem_map.mp hp
    rcases hlv : l with _ | ⟨v, l'⟩
    · exact absurd hlv (hne l hl)
    · subst hlv
      refine ⟨?_, ?_, ?_, ?_⟩
      · dsimp only
        rw [streamVals_okStream]
      · dsimp only
        rw [streamVals_okStream]
        exact (hsorted _ hl).of_cons
      · intro u hu w hw
        dsimp only at hu hw
        rw [streamVals_okStream] at hw
        obtain rfl : v = u := by simpa using hu
        exact List.rel_of_sorted_cons (hsorted _ hl) w hw
      · intro hcon
        simp at hcon
  · simp only [remaining, remainingList]
    exact peekInit_remaining ls hne

/-- The iterator state built by the heap-mode branch of `SortedIterator::new`
from sorted segment files satisfies the heap invariant, and its remaining
items are exactly the segments' contents. -/
theorem heapInv_init (cmp : α → α → Ordering) [TransCmp cmp]
    (ls : List (List α)) (c : Nat)
    (hsorted : ∀ l ∈ ls, List.Sorted (cle cmp) l) :
    HeapInv cmp ⟨ls.map fun l => (⟨okStream l, 0, false⟩ : Segment α),
      Mode.Heap [], c⟩ ∧
    remaining (⟨ls.map fun l => (⟨okStream l, 0, false⟩ : Segment α),
      Mode.Heap [], c⟩ : SortedIterator α) =
      ((ls.flatten : List α) : Multiset α) := by
  constructor
  · refine ⟨[], rfl, ?_, Or.inl rfl⟩
    constructor
    · intro s hs
      obtain ⟨l, -, rfl⟩ := List.mem_map.mp hs
      dsimp only
      rw [streamVals_okStream]
    · intro s hs
      obtain ⟨l, hl, rfl⟩ := List.mem_map.mp hs
      dsimp only
      rw [streamVals_okStream]
      exact hsorted l hl
    · intro s hs hdone
      obtain ⟨l, -, rfl⟩ := List.mem_map.mp hs
      cases hdone
    · intro p hp
      rw [List.length_map] at hp
      have hmem := getD_lt_mem (ls.map fun l => (⟨okStream l, 0, false⟩ : Segment α))
        p (by rw [List.length_map]; exact hp)
      obtain ⟨l, -, hval⟩ := List.mem_map.mp hmem
      rw [← hval]
      rfl
    · intro hi hhi
      cases hhi
    · intro hi hhi
      cases hhi
  · simp only [remaining, remainingList]
    rw [segsVals_okSegs]
    simp


/-! ## The full pipeline: push engine + finalization + drain -/

theorem isEmpty_false_of_ne_nil {β : Type} {l : List β} (h : l ≠ []) :
    l.isEmpty = false := by
  cases l with
  | nil => exact absurd rfl h
  | cons a t => rfl

theorem ne_nil_of_isEmpty_false {β : Type} {l : List β} (h : l.isEmpty = false) :
    l ≠ [] := by
  intro hnil
  rw [hnil] at h
  exact absurd h (by simp)

theorem done_eq_flush (cmp : α → α → Ordering) (thr : Nat)
    (P : PushExternalSorter α)
    (h : (!P.buffer.isEmpty && !P.segments_file.isEmpty) = true) :
    PushExternalSorter.done cmp thr P =
      SortedIterator.new none
        ((P.segments_file ++ [sortByCmp cmp P.buffer]).map okStream) P.count thr := by
  rw [PushExternalSorter.done, if_pos h]
  rfl

theorem done_eq_keep (cmp : α → α → Ordering) (thr : Nat)
    (P : PushExternalSorter α)
    (h : (!P.buffer.isEmpty && !P.segments_file.isEmpty) = false) :
    PushExternalSorter.done cmp thr P =
      SortedIterator.new (some (sortByCmp cmp P.buffer))
        (P.segments_file.map okStream) P.count thr := by
  rw [PushExternalSorter.done, if_neg (by rw [h]; exact Bool.false_ne_true)]

/-- End-to-end behaviour of `ExternalSorter::sort`/`PushExternalSorter::done`
followed by a full drain: the sort always succeeds, the drained elements are
all successful and sorted, and they are a permutation of the input — except
in the final-state configuration `buffer = [] ∧ segments ≠ []`, where the
`done` finalization enters passthrough mode on an empty queue and the drain
is empty (this documents the data-loss corner of the source). -/
theorem pipeline_spec (cmp : α → α → Ordering) [TransCmp cmp]
    (S thr : Nat) (input : List α) :
    ∃ it l, externalSort cmp S thr input = Except.ok it ∧
      drainAll cmp it = l.map Except.ok ∧
      List.Sorted (cle cmp) l ∧
      it.sorted_count = input.length ∧
      ((it.isHeap = true ∨ it.isPeek = true) → List.Perm l input) ∧
      (((PushExternalSorter.push_iter cmp (PushExternalSorter.new S) input).buffer = [] ∧
        (PushExternalSorter.push_iter cmp (PushExternalSorter.new S) input).segments_file ≠ []) →
          l = []) ∧
      (¬((PushExternalSorter.push_iter cmp (PushExternalSorter.new S) input).buffer = [] ∧
        (PushExternalSorter.push_iter cmp (PushExternalSorter.new S) input).segments_file ≠ []) →
          List.Perm l input) := by
  have hinv := pushInv_run cmp S input
  set P := PushExternalSorter.push_iter cmp (PushExternalSorter.new S) input with hPdef
  rw [externalSort, ← hPdef]
  by_cases hcond : (!P.buffer.isEmpty && !P.segments_file.isEmpty) = true
  · -- finalization flushes the buffer as one last segment
    have hbufne : P.buffer ≠ [] := by
      rcases Bool.and_eq_true_iff.mp hcond with ⟨h1, -⟩
      simp only [Bool.not_eq_true'] at h1
      exact ne_nil_of_isEmpty_false h1
    set ls := P.segments_file ++ [sortByCmp cmp P.buffer] with hls
    have hls_sorted : ∀ l ∈ ls, List.Sorted (cle cmp) l := by
      intro l hl
      rcases List.mem_append.mp hl with hl | hl
      · exact hinv.segs_sorted l hl
      · rcases List.mem_singleton.mp hl with rfl
        exact sortByCmp_sorted cmp _
    have hls_ne : ∀ l ∈ ls, l ≠ [] := by
      intro l hl
      rcases List.mem_append.mp hl with hl | hl
      · exact hinv.segs_ne l hl
      · rcases List.mem_singleton.mp hl with rfl
        intro hnil
        have h0 : (sortByCmp cmp P.buffer).length = 0 := by rw [hnil]; rfl
        rw [sortByCmp_length] at h0
        exact hbufne (List.eq_nil_of_length_eq_zero h0)
    have hls_perm : List.Perm ls.flatten input := by
      rw [hls, List.flatten_append, List.flatten_cons, List.flatten_nil,
        List.append_nil]
      exact (List.Perm.append_left _ (sortByCmp_perm cmp _)).trans hinv.perm
    rw [done_eq_flush cmp thr P hcond, ← hls]
    have hmm : (ls.map okStream).map (fun r => (⟨r, 0, false⟩ : Segment α)) =
        ls.map (fun l => (⟨okStream l, 0, false⟩ : Segment α)) := by
      rw [List.map_map]
      rfl
    rw [SortedIterator.new]
    rw [hmm]
    by_cases hthr : (ls.map fun l => (⟨okStream l, 0, false⟩ : Segment α)).length < thr
    · -- few segments: peek mode
      rw [if_pos hthr, peekInit_pure ls hls_ne]
      obtain ⟨hpinv, hprem⟩ := peekInv_init cmp ls P.count hls_sorted hls_ne
      obtain ⟨l, hdrain, hml, hsl⟩ := drain_spec cmp (PeekInv cmp)
        (fun st hst => peek_step cmp st hst)
        (SortedIterator.fuel ⟨ls.map fun x => (⟨okStream x.tail, 0, false⟩ : Segment α),
          Mode.Peek (ls.map fun x => x.head?), P.count⟩)
        ⟨ls.map fun x => (⟨okStream x.tail, 0, false⟩ : Segment α),
          Mode.Peek (ls.map fun x => x.head?), P.count⟩ hpinv
        (card_remaining_le_fuel _)
      have hlperm : List.Perm l input := by
        have h1 : (l : Multiset α) = ((ls.flatten : List α) : Multiset α) := by
          rw [hml, hprem]
        exact (Multiset.coe_eq_coe.mp h1).trans hls_perm
      refine ⟨_, l, rfl, hdrain, hsl, hinv.count_eq, fun _ => hlperm, ?_, fun _ => hlperm⟩
      intro hloss
      exact absurd hloss.1 hbufne
    · -- many segments: heap mode
      rw [if_neg hthr]
      obtain ⟨hhinv, hhrem⟩ := heapInv_init cmp ls P.count hls_sorted
      obtain ⟨l, hdrain, hml, hsl⟩ := drain_spec cmp (HeapInv cmp)
        (fun st hst => heap_step cmp st hst)
        (SortedIterator.fuel ⟨ls.map fun x => (⟨okStream x, 0, false⟩ : Segment α),
          Mode.Heap [], P.count⟩)
        ⟨ls.map fun x => (⟨okStream x, 0, false⟩ : Segment α),
          Mode.Heap [], P.count⟩ hhinv
        (card_remaining_le_fuel _)
      have hlperm : List.Perm l input := by
        have h1 : (l : Multiset α) = ((ls.flatten : List α) : Multiset α) := by
          rw [hml, hhrem]
        exact (Multiset.coe_eq_coe.mp h1).trans hls_perm
      refine ⟨_, l, rfl, hdrain, hsl, hinv.count_eq, fun _ => hlperm, ?_, fun _ => hlperm⟩
      intro hloss
      exact absurd hloss.1 hbufne
  · -- finalization keeps the buffer as the passthrough queue
    have hfalse : (!P.buffer.isEmpty && !P.segments_file.isEmpty) = false := by
      revert hcond
      cases (!P.buffer.isEmpty && !P.segments_file.isEmpty) <;> simp
    rw [done_eq_keep cmp thr P hfalse, SortedIterator.new]
    have hpa : PassInv cmp ⟨(P.segments_file.map okStream).map
        (fun r => (⟨r, 0, false⟩ : Segment α)),
        Mode.Passthrough (sortByCmp cmp P.buffer), P.count⟩ :=
      ⟨sortByCmp cmp P.buffer, rfl, sortByCmp_sorted cmp _⟩
    obtain ⟨l, hdrain, hml, hsl⟩ := drain_spec cmp (PassInv cmp)
      (fun st hst => pass_step cmp st hst)
      (SortedIterator.fuel ⟨(P.segments_file.map okStream).map
        (fun r => (⟨r, 0, false⟩ : Segment α)),
        Mode.Passthrough (sortByCmp cmp P.buffer), P.count⟩)
      ⟨(P.segments_file.map okStream).map (fun r => (⟨r, 0, false⟩ : Segment α)),
        Mode.Passthrough (sortByCmp cmp P.buffer), P.count⟩ hpa
      (card_remaining_le_fuel _)
    have hlq : List.Perm l (sortByCmp cmp P.buffer) := by
      apply Multiset.coe_eq_coe.mp
      rw [hml]
      rfl
    have hlbuf : List.Perm l P.buffer := hlq.trans (sortByCmp_perm cmp _)
    have hmode : ∀ h : (SortedIterator.isHeap
        (⟨(P.segments_file.map okStream).map (fun r => (⟨r, 0, false⟩ : Segment α)),
          Mode.Passthrough (sortByCmp cmp P.buffer), P.count⟩ : SortedIterator α) = true ∨
        SortedIterator.isPeek
        (⟨(P.segments_file.map okStream).map (fun r => (⟨r, 0, false⟩ : Segment α)),
          Mode.Passthrough (sortByCmp cmp P.buffer), P.count⟩ : SortedIterator α) = true),
        List.Perm l input := by
      intro h
      rcases h with h | h <;> exact absurd h (by simp [SortedIterator.isHeap,
        SortedIterator.isPeek])
    by_cases hbuf : P.buffer = []
    · by_cases hseg : P.segments_file = []
      · -- nothing was ever spilled and the buffer is empty: input was empty
        have hinp : input = [] := by
          have hp := hinv.perm
          rw [hbuf, hseg] at hp
          exact hp.symm.eq_nil
        refine ⟨_, l, rfl, hdrain, hsl, hinv.count_eq, hmode, fun _ => ?_, fun _ => ?_⟩
        · rw [hbuf] at hlbuf
          exact hlbuf.eq_nil
        · rw [hinp]
          rw [hbuf] at hlbuf
          exact hlbuf
      · -- data loss: the buffer is empty but segments exist
        refine ⟨_, l, rfl, hdrain, hsl, hinv.count_eq, hmode, fun _ => ?_, fun hnp => ?_⟩
        · rw [hbuf] at hlbuf
          exact hlbuf.eq_nil
        · exact absurd ⟨hbuf, hseg⟩ hnp
    · -- no spill ever happened: the buffer holds the whole input
      have hseg : P.segments_file = [] := by
        rcases Bool.and_eq_false_iff.mp hfalse with h1 | h2
        · rw [Bool.not_eq_false'] at h1
          exact absurd (List.isEmpty_iff.mp h1) hbuf
        · rw [Bool.not_eq_false'] at h2
          exact List.isEmpty_iff.mp h2
      have hbinp : List.Perm P.buffer input := by
        have hp := hinv.perm
        rw [hseg] at hp
        simpa using hp
      have hlinp : List.Perm l input := hlbuf.trans hbinp
      refine ⟨_, l, rfl, hdrain, hsl, hinv.count_eq, hmode, fun hloss => ?_,
        fun _ => hlinp⟩
      exact absurd hloss.1 hbuf

/-! ## Arithmetic helpers for the segment-count formula -/

theorem div_mul_add_self (segs S : Nat) : (segs * (S + 1) + S) / (S + 1) = segs := by
  apply Nat.div_eq_of_lt_le <;> · ring_nf; omega

theorem div_mul_add_partial (segs S b : Nat) (h1 : 1 ≤ b) (h2 : b ≤ S) :
    (segs * (S + 1) + b + S) / (S + 1) = segs + 1 := by
  apply Nat.div_eq_of_lt_le <;> · ring_nf; omega

/-! ## The claims -/

/-- Claim C1 — refuted (code bug).  The claim asserts that, when all decodes
succeed, fully draining the iterator yields exactly the input's multiset.
Counterexample run: pushing `[0, 1, 2, 3]` with segment size 3 spills the
whole buffer as one segment on the fourth push, so `done()` sees an empty
buffer together with a non-empty segment list, takes the passthrough branch
with an empty queue, and the drain yields nothing: all four items are lost. -/
theorem multiset_loss_on_exact_multiple :
    ∃ it : SortedIterator Nat, externalSort compare 3 20 [0, 1, 2, 3] = Except.ok it ∧
      it.sorted_count = 4 ∧ drainAll compare it = [] ∧
      ¬ List.Perm (okItems (drainAll compare it)) [0, 1, 2, 3] :=
  ⟨_, rfl, rfl, rfl, by decide⟩

/-- Claim C3 — refuted (code bug).  The claim asserts that a passthrough-mode
iterator always reports `disk_segment_count() = 0`.  The same run as claim C1
ends in passthrough mode while one segment file sits on disk. -/
theorem passthrough_with_disk_segment :
    ∃ it : SortedIterator Nat, externalSort compare 3 20 [0, 1, 2, 3] = Except.ok it ∧
      it.isPassthrough = true ∧ it.disk_segment_count = 1 :=
  ⟨_, rfl, rfl, rfl⟩

/-- Claim C10 — confirmed.  `done()` on a push engine that never received an
item succeeds with a passthrough iterator over the empty queue:
`sorted_count() = 0`, `disk_segment_count() = 0`, the first `next()` returns
`None`, and the engine never created the sort directory. -/
theorem done_empty_engine (cmp : α → α → Ordering) (S thr : Nat) :
    ∃ it : SortedIterator α,
      PushExternalSorter.done cmp thr (PushExternalSorter.new S) = Except.ok it ∧
      it.isPassthrough = true ∧ it.sorted_count = 0 ∧ it.disk_segment_count = 0 ∧
      (SortedIterator.next cmp it).1 = none ∧
      (PushExternalSorter.new (α := α) S).dir_created = false :=
  ⟨⟨[], Mode.Passthrough [], 0⟩, rfl, rfl, rfl, rfl, rfl, rfl⟩

/-- Claim C5 — corrected.  The claim asserts that a segment whose first item
decodes and whose second decode fails with a non-EOF error contributes the
first value once followed by one error.  In fact the peek-mode error branch
returns only the error and discards the already-selected first value: the
segment's whole contribution is the single error element. -/
theorem segment_decode_error_contribution (cmp : α → α → Ordering) (v : α)
    (code : Nat) (c thr : Nat) (hthr : 1 < thr) (it : SortedIterator α)
    (h : SortedIterator.new none [[Except.ok v, Except.error (IOError.other code)]]
      c thr = Except.ok it) :
    drainAll cmp it = [Except.error (IOError.other code)] ∧
    okItems (drainAll cmp it) = [] := by
  have hnew : SortedIterator.new (α := α) none
      [[Except.ok v, Except.error (IOError.other code)]] c thr =
      Except.ok ⟨[⟨[Except.error (IOError.other code)], 0, false⟩],
        Mode.Peek [some v], c⟩ := by
    rw [SortedIterator.new]
    have hc : (List.map (fun r => (⟨r, 0, false⟩ : Segment α))
        [[Except.ok v, Except.error (IOError.other code)]]).length < thr := hthr
    rw [if_pos hc]
    rfl
  obtain rfl := Except.ok.inj ((hnew.symm.trans h))
  exact ⟨rfl, rfl⟩

/-- The concrete run behind the correction of claim C5: a segment encoding
`[0]` followed by a corrupt record contributes only the error — the decoded
first value is dropped, refuting the claimed `[Ok 0, Err]` contribution. -/
theorem segment_decode_error_value_dropped :
    ∃ it : SortedIterator Nat,
      SortedIterator.new none [[Except.ok 0, Except.error (IOError.other 7)]] 2 20 =
        Except.ok it ∧
      drainAll compare it = [Except.error (IOError.other 7)] ∧
      drainAll compare it ≠ [Except.ok 0, Except.error (IOError.other 7)] :=
  ⟨_, rfl, rfl, by decide⟩

theorem segment_decode_error_contribution_witness :
    drainAll compare (⟨[⟨[Except.error (IOError.other 7)], 0, false⟩],
        Mode.Peek [some 0], 2⟩ : SortedIterator Nat) =
      [Except.error (IOError.other 7)] ∧
    okItems (drainAll compare (⟨[⟨[Except.error (IOError.other 7)], 0, false⟩],
        Mode.Peek [some 0], 2⟩ : SortedIterator Nat)) = [] :=
  segment_decode_error_contribution compare 0 7 2 20 (by decide) _ rfl

/-- Claim C6 — confirmed.  A clean end-of-stream is never surfaced: no drain
of any iterator state ever yields `Err(UnexpectedEof)`; in peek mode a decode
that hits end-of-stream (exhausted reader or an explicit EOF outcome) still
yields the selected value successfully and merely retires the segment, while
a non-EOF decode failure is returned as an error element in place of an item
rather than ending the sequence. -/
theorem eof_never_surfaced (cmp : α → α → Ordering) :
    (∀ (fuel : Nat) (it : SortedIterator α),
      Except.error IOError.unexpectedEof ∉ drain cmp fuel it) ∧
    (∀ (segs : List (Segment α)) (nv : List (Option α)) (c i : Nat) (v : α)
      (rest : Reader α),
      selectSmallest cmp nv = some (i, v) →
      ((segs.getD i Segment.junk).reader = [] ∨
        (segs.getD i Segment.junk).reader = Except.error IOError.unexpectedEof :: rest) →
      (SortedIterator.next cmp ⟨segs, Mode.Peek nv, c⟩).1 = some (Except.ok v)) ∧
    (∀ (segs : List (Segment α)) (nv : List (Option α)) (c i : Nat) (v : α)
      (code : Nat) (rest : Reader α),
      selectSmallest cmp nv = some (i, v) →
      (segs.getD i Segment.junk).reader = Except.error (IOError.other code) :: rest →
      (SortedIterator.next cmp ⟨segs, Mode.Peek nv, c⟩).1 =
        some (Except.error (IOError.other code))) := by
  refine ⟨drain_no_eof cmp, ?_, ?_⟩
  · intro segs nv c i v rest hsel hrd
    rcases hrd with hrd | hrd <;> rw [next_peek_eq cmp segs nv c hsel, hrd]
  · intro segs nv c i v code rest hsel hrd
    rw [next_peek_eq cmp segs nv c hsel, hrd]

/-- The counterexample to claim C4's formula: 10 items with segment size 3
produce 3 segments on disk, not `⌈10 / 3⌉ = 4` — segments hold `S + 1` items
because the spill only fires once the buffer exceeds `S`. -/
theorem disk_segment_count_ceil_counterexample :
    ∃ it : SortedIterator Nat,
      externalSort compare 3 20 [0, 1, 2, 3, 4, 5, 6, 7, 8, 9] = Except.ok it ∧
      it.disk_segment_count = 3 ∧ (3 : Nat) ≠ (10 + 3 - 1) / 3 :=
  ⟨_, rfl, rfl, by decide⟩

/-- Claim C4 — corrected.  The claim's formula `⌈N / S⌉` is wrong because a
spill fires only when the buffer exceeds `S`, so each spilled segment holds
`S + 1` items.  Amended formula: with `S < N`, `done()` succeeds and
`disk_segment_count()` equals `⌈N / (S + 1)⌉ = (N + S) / (S + 1)` — the
spilled segments plus, when a non-empty remainder is left in the buffer, one
final flushed segment. -/
theorem disk_segment_count_formula (cmp : α → α → Ordering) [TransCmp cmp]
    (S thr : Nat) (input : List α) (hS : S < input.length) :
    ∃ it : SortedIterator α, externalSort cmp S thr input = Except.ok it ∧
      it.disk_segment_count = (input.length + S) / (S + 1) := by
  have hinv := pushInv_run cmp S input
  set P := PushExternalSorter.push_iter cmp (PushExternalSorter.new S) input with hPdef
  rw [externalSort, ← hPdef]
  have harith : input.length = P.segments_file.length * (S + 1) + P.buffer.length := by
    have h1 := hinv.arith
    rw [hinv.count_eq] at h1
    exact h1
  have hble := hinv.buf_le
  by_cases hcond : (!P.buffer.isEmpty && !P.segments_file.isEmpty) = true
  · -- the final flush adds one more segment
    have hbufne : P.buffer ≠ [] := by
      rcases Bool.and_eq_true_iff.mp hcond with ⟨h1, -⟩
      simp only [Bool.not_eq_true'] at h1
      exact ne_nil_of_isEmpty_false h1
    have hbpos : 1 ≤ P.buffer.length :=
      Nat.pos_of_ne_zero (fun h0 => hbufne (List.eq_nil_of_length_eq_zero h0))
    set ls := P.segments_file ++ [sortByCmp cmp P.buffer] with hls
    have hls_ne : ∀ l ∈ ls, l ≠ [] := by
      intro l hl
      rcases List.mem_append.mp hl with hl | hl
      · exact hinv.segs_ne l hl
      · rcases List.mem_singleton.mp hl with rfl
        intro hnil
        have h0 : (sortByCmp cmp P.buffer).length = 0 := by rw [hnil]; rfl
        rw [sortByCmp_length] at h0
        exact hbufne (List.eq_nil_of_length_eq_zero h0)
    have hlslen : ls.length = P.segments_file.length + 1 := by
      rw [hls, List.length_append, List.length_singleton]
    have hgoal : ls.length = (input.length + S) / (S + 1) := by
      rw [hlslen, harith, div_mul_add_partial _ _ _ hbpos hble]
    rw [done_eq_flush cmp thr P hcond, ← hls]
    rw [SortedIterator.new]
    have hmm : (ls.map okStream).map (fun r => (⟨r, 0, false⟩ : Segment α)) =
        ls.map (fun l => (⟨okStream l, 0, false⟩ : Segment α)) := by
      rw [List.map_map]
      rfl
    rw [hmm]
    by_cases hthr : (ls.map fun l => (⟨okStream l, 0, false⟩ : Segment α)).length < thr
    · rw [if_pos hthr, peekInit_pure ls hls_ne]
      refine ⟨_, rfl, ?_⟩
      show (ls.map fun l => (⟨okStream l.tail, 0, false⟩ : Segment α)).length = _
      rw [List.length_map]
      exact hgoal
    · rw [if_neg hthr]
      refine ⟨_, rfl, ?_⟩
      show (ls.map fun l => (⟨okStream l, 0, false⟩ : Segment α)).length = _
      rw [List.length_map]
      exact hgoal
  · -- no final flush: the buffer must be empty (it cannot hold all the items)
    have hfalse : (!P.buffer.isEmpty && !P.segments_file.isEmpty) = false := by
      revert hcond
      cases (!P.buffer.isEmpty && !P.segments_file.isEmpty) <;> simp
    have hbuf : P.buffer = [] := by
      rcases Bool.and_eq_false_iff.mp hfalse with h1 | h2
      · rw [Bool.not_eq_false'] at h1
        exact List.isEmpty_iff.mp h1
      · rw [Bool.not_eq_false'] at h2
        have hseg : P.segments_file = [] := List.isEmpty_iff.mp h2
        rw [hseg] at harith
        simp only [List.length_nil, Nat.zero_mul, Nat.zero_add] at harith
        omega
    have hb0 : P.buffer.length = 0 := by rw [hbuf]; rfl
    rw [done_eq_keep cmp thr P hfalse, SortedIterator.new]
    refine ⟨_, rfl, ?_⟩
    show ((P.segments_file.map okStream).map
      (fun r => (⟨r, 0, false⟩ : Segment α))).length = _
    rw [List.length_map, List.length_map, harith, hb0, Nat.add_zero,
      div_mul_add_self]

theorem disk_segment_count_formula_witness :
    ∃ it : SortedIterator Nat,
      externalSort compare 3 20 [0, 1, 2, 3, 4, 5, 6, 7, 8, 9, 10, 11] = Except.ok it ∧
      it.disk_segment_count =
        (([0, 1, 2, 3, 4, 5, 6, 7, 8, 9, 10, 11] : List Nat).length + 3) / (3 + 1) :=
  disk_segment_count_formula compare 3 20 [0, 1, 2, 3, 4, 5, 6, 7, 8, 9, 10, 11]
    (by decide)

/-- Claim C2 — confirmed.  Every successful run of the sorter yields its
successfully decoded items in non-decreasing comparator order: along the
drained output, no `Ok` item is strictly below its predecessor.  (The
pipeline realizes all three modes — passthrough, peek and heap — depending
on the input size and segment count.) -/
theorem output_nondecreasing (cmp : α → α → Ordering) [TransCmp cmp]
    (S thr : Nat) (input : List α) (it : SortedIterator α)
    (h : externalSort cmp S thr input = Except.ok it) :
    List.Chain' (fun a b => cmp b a ≠ Ordering.lt) (okItems (drainAll cmp it)) := by
  obtain ⟨it₀, l, h₀, hdrain, hsorted, -⟩ := pipeline_spec cmp S thr input
  obtain rfl : it₀ = it := Except.ok.inj (h₀.symm.trans h)
  rw [hdrain, okItems_map_ok]
  exact (List.Pairwise.chain' hsorted).imp (fun a b hab => not_lt_of_cle cmp hab)

theorem output_nondecreasing_witness :
    List.Chain' (fun a b => compare b a ≠ Ordering.lt)
      (okItems (drainAll compare
        (⟨[⟨[Except.ok 2], 0, false⟩, ⟨[], 0, false⟩],
          Mode.Peek [some 0, some 1], 3⟩ : SortedIterator Nat))) :=
  output_nondecreasing compare 1 3 [2, 0, 1] _ rfl

/-- Claim C8 — confirmed.  Every segment the push engine writes comes from a
non-empty buffer, so it holds at least one record; consequently the
construction of the iterator from such segment files never hits end-of-stream
on its one decode per segment (peek mode) and always succeeds, as does the
whole pipeline. -/
theorem segments_nonempty_eof_unreachable (cmp : α → α → Ordering) [TransCmp cmp]
    (S thr : Nat) (input : List α) :
    (∀ seg ∈ (PushExternalSorter.push_iter cmp
        (PushExternalSorter.new S) input).segments_file, seg ≠ []) ∧
    (∀ (ls : List (List α)) (q : Option (List α)) (c k : Nat),
      (∀ l ∈ ls, l ≠ []) →
      ∃ it : SortedIterator α,
        SortedIterator.new q (ls.map okStream) c k = Except.ok it) ∧
    (∃ it : SortedIterator α, externalSort cmp S thr input = Except.ok it) := by
  refine ⟨(pushInv_run cmp S input).segs_ne, ?_, ?_⟩
  · intro ls q c k hne
    cases q with
    | some queue => exact ⟨_, rfl⟩
    | none =>
      rw [SortedIterator.new]
      have hmm : (ls.map okStream).map (fun r => (⟨r, 0, false⟩ : Segment α)) =
          ls.map (fun l => (⟨okStream l, 0, false⟩ : Segment α)) := by
        rw [List.map_map]
        rfl
      rw [hmm]
      by_cases hlen : (ls.map fun l => (⟨okStream l, 0, false⟩ : Segment α)).length < k
      · rw [if_pos hlen, peekInit_pure ls hne]
        exact ⟨_, rfl⟩
      · rw [if_neg hlen]
        exact ⟨_, rfl⟩
  · obtain ⟨it, l, h, -⟩ := pipeline_spec cmp S thr input
    exact ⟨it, h⟩

theorem segments_nonempty_eof_unreachable_witness :
    (∀ seg ∈ (PushExternalSorter.push_iter compare
        (PushExternalSorter.new 3) [5, 6, 7, 8]).segments_file, seg ≠ []) ∧
    (∀ (ls : List (List Nat)) (q : Option (List Nat)) (c k : Nat),
      (∀ l ∈ ls, l ≠ []) →
      ∃ it : SortedIterator Nat,
        SortedIterator.new q (ls.map okStream) c k = Except.ok it) ∧
    (∃ it : SortedIterator Nat, externalSort compare 3 20 [5, 6, 7, 8] = Except.ok it) :=
  segments_nonempty_eof_unreachable compare 3 20 [5, 6, 7, 8]

/-- Claim C9 — confirmed.  In heap mode, on any state satisfying the heap
invariant: each segment's `heap_count` equals the number of that segment's
items currently in the heap; immediately before a pop (the heap non-empty)
every segment not marked done keeps at least one candidate in the heap; and
any `next` that yields an item pops a minimum of all not-yet-yielded items,
removes exactly that one occurrence, and re-establishes the invariant. -/
theorem heap_invariant_preserved (cmp : α → α → Ordering) [TransCmp cmp]
    (it : SortedIterator α) (heap : List (HeapItem α))
    (hmode : it.mode = Mode.Heap heap) (hinv : HeapInv cmp it) :
    (∀ p, p < it.segments.length →
      (it.segments.getD p Segment.junk).heap_count =
        heap.countP (fun hi => hi.segment_index == p)) ∧
    (heap ≠ [] → ∀ seg ∈ it.segments, seg.done = false → 1 ≤ seg.heap_count) ∧
    (∀ (v : α) (it' : SortedIterator α),
      SortedIterator.next cmp it = (some (Except.ok v), it') →
      HeapInv cmp it' ∧ remaining it = v ::ₘ remaining it' ∧
        ∀ w ∈ remaining it, cle cmp v w) := by
  obtain ⟨heap', hm', haux, hcov⟩ := hinv
  obtain rfl : heap' = heap := by
    rw [hmode] at hm'
    exact (Mode.Heap.inj hm').symm
  refine ⟨haux.counts, ?_, ?_⟩
  · intro hne
    rcases hcov with h | h
    · exact absurd h hne
    · exact h
  · intro v it' hnext
    obtain ⟨hzero, hstep⟩ := heap_step cmp it ⟨_, hm', haux, hcov⟩
    by_cases h0 : remaining it = 0
    · have hn := hzero h0
      rw [hnext] at hn
      simp at hn
    · obtain ⟨v', it'', hn', hinv', hrem', hmin'⟩ := hstep h0
      have heq : (some (Except.ok v), it') =
          (some (Except.ok v'), it'') := hnext.symm.trans hn'
      simp only [Prod.mk.injEq, Option.some.injEq, Except.ok.injEq] at heq
      obtain ⟨rfl, rfl⟩ := heq
      exact ⟨hinv', hrem', hmin'⟩

theorem heap_invariant_preserved_witness :
    (∀ p, p < (⟨[⟨okStream [5], 0, false⟩], Mode.Heap [], 1⟩ :
        SortedIterator Nat).segments.length →
      ((⟨[⟨okStream [5], 0, false⟩], Mode.Heap [], 1⟩ :
        SortedIterator Nat).segments.getD p Segment.junk).heap_count =
        ([] : List (HeapItem Nat)).countP (fun hi => hi.segment_index == p)) ∧
    (([] : List (HeapItem Nat)) ≠ [] →
      ∀ seg ∈ (⟨[⟨okStream [5], 0, false⟩], Mode.Heap [], 1⟩ :
        SortedIterator Nat).segments, seg.done = false → 1 ≤ seg.heap_count) ∧
    (∀ (v : Nat) (it' : SortedIterator Nat),
      SortedIterator.next compare
        (⟨[⟨okStream [5], 0, false⟩], Mode.Heap [], 1⟩ : SortedIterator Nat) =
        (some (Except.ok v), it') →
      HeapInv compare it' ∧
        remaining (⟨[⟨okStream [5], 0, false⟩], Mode.Heap [], 1⟩ :
          SortedIterator Nat) = v ::ₘ remaining it' ∧
        ∀ w ∈ remaining (⟨[⟨okStream [5], 0, false⟩], Mode.Heap [], 1⟩ :
          SortedIterator Nat), cle compare v w) :=
  heap_invariant_preserved compare
    (⟨[⟨okStream [5], 0, false⟩], Mode.Heap [], 1⟩ : SortedIterator Nat) [] rfl
    ⟨[], rfl, ⟨by decide, by decide, by decide, by decide, by decide, by decide⟩,
      Or.inl rfl⟩

/-- Claim C7 — confirmed.  For one input of pairwise comparator-distinct
items, a run whose segment size produces at least 20 disk segments (heap
merge) and a run producing fewer than 20 (linear-scan peek merge) drain to
the same output sequence. -/
theorem heap_peek_same_output (cmp : α → α → Ordering) [TransCmp cmp]
    (S₁ S₂ : Nat) (input : List α) (it₁ it₂ : SortedIterator α)
    (h₁ : externalSort cmp S₁ 20 input = Except.ok it₁)
    (h₂ : externalSort cmp S₂ 20 input = Except.ok it₂)
    (hH : it₁.isHeap = true) (hc₁ : 20 ≤ it₁.disk_segment_count)
    (hP : it₂.isPeek = true) (hc₂ : it₂.disk_segment_count < 20)
    (hdist : ∀ a ∈ input, ∀ b ∈ input, cmp a b = Ordering.eq → a = b) :
    drainAll cmp it₁ = drainAll cmp it₂ := by
  obtain ⟨itA, l₁, hA, hd₁, hs₁, -, hmode₁, -, -⟩ := pipeline_spec cmp S₁ 20 input
  obtain ⟨itB, l₂, hB, hd₂, hs₂, -, hmode₂, -, -⟩ := pipeline_spec cmp S₂ 20 input
  obtain rfl : itA = it₁ := Except.ok.inj (hA.symm.trans h₁)
  obtain rfl : itB = it₂ := Except.ok.inj (hB.symm.trans h₂)
  have hp₁ : List.Perm l₁ input := hmode₁ (Or.inl hH)
  have hp₂ : List.Perm l₂ input := hmode₂ (Or.inr hP)
  have hdist' : ∀ a ∈ l₁, ∀ b ∈ l₁, cmp a b = Ordering.eq → a = b :=
    fun a ha b hb h => hdist a (hp₁.subset ha) b (hp₁.subset hb) h
  have hl : l₁ = l₂ := sorted_perm_eq cmp (hp₁.trans hp₂.symm) hs₁ hs₂ hdist'
  rw [hd₁, hd₂, hl]

set_option maxRecDepth 8000 in
theorem heap_peek_same_output_witness :
    (externalSort compare 1 20 ((List.range 41).reverse)).map (drainAll compare) =
      (externalSort compare 30 20 ((List.range 41).reverse)).map (drainAll compare) := by
  obtain ⟨it₁, h₁⟩ : ∃ it : SortedIterator Nat,
      externalSort compare 1 20 ((List.range 41).reverse) = Except.ok it := ⟨_, rfl⟩
  obtain ⟨it₂, h₂⟩ : ∃ it : SortedIterator Nat,
      externalSort compare 30 20 ((List.range 41).reverse) = Except.ok it := ⟨_, rfl⟩
  have hH : it₁.isHeap = true := by
    have h : (externalSort compare 1 20 ((List.range 41).reverse)).map
        SortedIterator.isHeap = Except.ok true := by rfl
    rw [h₁] at h
    simp only [Except.map] at h
    exact Except.ok.inj h
  have hd₁ : it₁.disk_segment_count = 21 := by
    have h : (externalSort compare 1 20 ((List.range 41).reverse)).map
        SortedIterator.disk_segment_count = Except.ok 21 := by rfl
    rw [h₁] at h
    simp only [Except.map] at h
    exact Except.ok.inj h
  have hP : it₂.isPeek = true := by
    have h : (externalSort compare 30 20 ((List.range 41).reverse)).map
        SortedIterator.isPeek = Except.ok true := by rfl
    rw [h₂] at h
    simp only [Except.map] at h
    exact Except.ok.inj h
  have hd₂ : it₂.disk_segment_count = 2 := by
    have h : (externalSort compare 30 20 ((List.range 41).reverse)).map
        SortedIterator.disk_segment_count = Except.ok 2 := by rfl
    rw [h₂] at h
    simp only [Except.map] at h
    exact Except.ok.inj h
  rw [h₁, h₂]
  simp only [Except.map]
  exact congrArg Except.ok (heap_peek_same_output compare 1 30
    ((List.range 41).reverse) it₁ it₂ h₁ h₂ hH (by omega) hP (by omega)
    (by decide))

end Extsort
